import Mathlib

/-!
Verification of the Web_Modeler ODE-modelling core (`src/unnamed/part_002`,
the current iteration of `system.js`).

The development shallowly embeds the data model and the operations of the
source: mathjs expression trees become a pure inductive `Expr`; JS objects
(string-keyed maps with insertion order and unique keys) become association
lists manipulated through `jsObjSet`/`alookup`; JS arrays become lists with
`jsSetIdx` modelling indexed assignment; numbers become rationals; code
paths that throw a `TypeError` return `none`.  External collaborators
(mathjs parse/compile/eval, the `numeric.dopri` integrator) are modelled by
their interface contracts from the specification: an integrator run is an
arbitrary well-formed `Solution`, a compiled evaluator is the expression it
was compiled from, evaluated by `evalE`.
-/

namespace WebModeler

/-- A mathjs expression syntax tree, as produced by `math.parse` for the
modelling language used by the source (symbols, number constants, unary and
binary operator nodes).  `binop "add" a b` models
`OperatorNode('+','add',[a,b])`. -/
inductive Expr where
  | sym (name : String)
  | num (v : ℚ)
  | unop (fn : String) (a : Expr)
  | binop (fn : String) (a b : Expr)
deriving DecidableEq, Repr

/-- The names of the `SymbolNode`s of an expression in mathjs `filter`
traversal order (the node itself before its children, children left to
right); only symbol leaves are kept, exactly as
`expression.filter(node.type == 'SymbolNode')` followed by taking names. -/
def exprSyms : Expr → List String
  | .sym n => [n]
  | .num _ => []
  | .unop _ a => exprSyms a
  | .binop _ a b => exprSyms a ++ exprSyms b

/-- Number of nodes of an expression tree. -/
def exprSize : Expr → Nat
  | .sym _ => 1
  | .num _ => 1
  | .unop _ a => exprSize a + 1
  | .binop _ a b => exprSize a + exprSize b + 1

/-- First-match association-list lookup, the meaning of `obj[k]` on a JS
object (`none` models `undefined`). -/
def alookup [DecidableEq κ] (k : κ) : List (κ × α) → Option α
  | [] => none
  | p :: t => if p.1 = k then some p.2 else alookup k t

/-- In-place renaming of symbol nodes, as performed by the `Interaction`
constructor: every `SymbolNode` whose name is a key of the symbol table is
rewritten to the mapped name, all other nodes are left unchanged.  (The
source collects all symbol nodes with `filter` first and then assigns
`node.name`, so each node is renamed at most once, based on its original
name.) -/
def renameExpr (table : List (String × String)) : Expr → Expr
  | .sym n =>
    match alookup n table with
    | some m => .sym m
    | none => .sym n
  | .num v => .num v
  | .unop f a => .unop f (renameExpr table a)
  | .binop f a b => .binop f (renameExpr table a) (renameExpr table b)

/-- Evaluation of a compiled expression against a scope, modelling
`compiled.eval(scope)` of the external algebra engine for the operators the
source uses.  An unknown symbol or operator makes mathjs throw, modelled by
`none`; division by zero (an `Infinity` result) is likewise modelled by
`none` since nonfinite numbers are outside the rational embedding. -/
def evalE (scope : List (String × ℚ)) : Expr → Option ℚ
  | .sym n => alookup n scope
  | .num v => some v
  | .unop f a => do
    let x ← evalE scope a
    if f = "unaryMinus" then some (-x) else none
  | .binop f a b => do
    let x ← evalE scope a
    let y ← evalE scope b
    if f = "add" then some (x + y)
    else if f = "subtract" then some (x - y)
    else if f = "multiply" then some (x * y)
    else if f = "divide" then (if y = 0 then none else some (x / y))
    else none

/-- JS object property assignment `obj[k] = v` on a string-keyed object
modelled as an association list: an existing key keeps its position and gets
the new value, a new key is appended (JS objects have unique keys and
preserve insertion order for string keys). -/
def jsObjSet (l : List (String × α)) (k : String) (v : α) : List (String × α) :=
  match l with
  | [] => [(k, v)]
  | p :: t => if p.1 = k then (k, v) :: t else p :: jsObjSet t k v

/-- Boolean membership test on a list of strings (the meaning of
`Object.keys(obj).indexOf(k) != -1`). -/
def memb (n : String) : List String → Bool
  | [] => false
  | a :: t => if a = n then true else memb n t

/-- First index of an element in a list (the meaning of `xs.indexOf(v)` for
a present element; callers guard the absent case separately, since JS
returns `-1` there). -/
def idxOf [DecidableEq α] (v : α) : List α → Nat
  | [] => 0
  | a :: t => if a = v then 0 else idxOf v t + 1

/-- JS array element assignment `arr[i] = v`: in-range assignment replaces,
out-of-range assignment extends the array, padding the gap with holes
(`pad`). -/
def jsSetIdx (l : List α) (i : Nat) (v : α) (pad : α) : List α :=
  if i < l.length then l.set i v
  else l ++ List.replicate (i - l.length) pad ++ [v]

/-- `xs[xs.length - 1]` on a nonempty JS array; the default is never
consulted at the call sites below, where the array is nonempty. -/
def jsLast (l : List ℚ) : ℚ := l.getLast?.getD 0

/-- A `Rule` object: a name and a mathematical expression pre-parsed into a
syntax tree (`null` until `set` is called). -/
structure Rule where
  name : Option String
  expression : Option Expr
deriving DecidableEq, Repr

/-- The freshly constructed `new Rule()`: both fields `null`. -/
def emptyRule : Rule := { name := none, expression := none }

/-- A `Species`: a named state variable with its current value and its
rate law. -/
structure Species where
  name : Option String
  value : ℚ
  rate_law : Rule
deriving DecidableEq, Repr

/-- The `Species(initial_value, name)` constructor: the value starts at the
initial value and the rate law is a fresh unset `Rule`. -/
def Species.mkNew (initial_value : ℚ) (name : Option String) : Species :=
  { name := name, value := initial_value, rate_law := emptyRule }

/-- A `Parameter`: a named numeric constant. -/
structure Parameter where
  value : ℚ
  name : Option String
deriving DecidableEq, Repr

/-- An `InteractionDefinition` (and, through the source's prototype
subclassing, also an `Interaction` instance): a name plus the child rules
keyed by local variable symbol, in insertion order.  The back reference to
the owning system is omitted; operations that consult it receive the system
explicitly. -/
structure InteractionDefinition where
  name : String
  rules : List (String × Rule)
deriving DecidableEq, Repr

/-- `InteractionDefinition(system, name, species)`: one fresh empty rule is
registered per listed species name, in order (duplicate names collapse onto
one key, as for a JS object). -/
def InteractionDefinition.mkNew (name : String) (species : List String) :
    InteractionDefinition :=
  { name := name
    rules := species.foldl (fun r v => jsObjSet r v emptyRule) [] }

/-- `variables()`: the local variable symbols, which are the rule keys in
insertion order. -/
def variablesOf (d : InteractionDefinition) : List String :=
  d.rules.map Prod.fst

/-- `parameters()`: scan each rule (in insertion order) whose expression is
set, keep the symbol nodes whose name is neither a variable symbol nor
already in the accumulated array, and append their names.  The accumulated
array is only consulted between rules (the filter predicate closes over the
array as it stood when the rule's scan started), exactly as in the source. -/
def parametersOf (d : InteractionDefinition) : List String :=
  let vars := variablesOf d
  d.rules.foldl
    (fun ps p =>
      match p.2.expression with
      | some e => ps ++ (exprSyms e).filter (fun n => !(memb n vars) && !(memb n ps))
      | none => ps)
    []

/-- The global `System` object: species, parameters and interaction
definitions keyed by identifier, the list `_interactions` of live
interaction instances in registration order, and the compiled `model`
(`none` models a `null` or hole entry). -/
structure WebSystem where
  species : List (String × Species)
  parameters : List (String × Parameter)
  interactions : List (String × InteractionDefinition)
  instances : List InteractionDefinition
  model : List (Option Expr)
deriving DecidableEq, Repr

/-- `System.addSpecies(identifier, initial_value, name)`: register a new
`Species` under the identifier (replacing any existing one), then assign
`model[Object.keys(this.species).length - 1] = null`. -/
def addSpecies (s : WebSystem) (identifier : String) (initial_value : ℚ)
    (name : Option String) : WebSystem :=
  let species' := jsObjSet s.species identifier (Species.mkNew initial_value name)
  { s with
    species := species'
    model := jsSetIdx s.model (species'.length - 1) none none }

/-- `System.addParameter(identifier, value, name)`. -/
def addParameter (s : WebSystem) (identifier : String) (value : ℚ)
    (name : Option String) : WebSystem :=
  { s with parameters := jsObjSet s.parameters identifier ⟨value, name⟩ }

/-- `System.defineInteraction(name, species)`. -/
def defineInteraction (s : WebSystem) (name : String) (species : List String) :
    WebSystem :=
  { s with
    interactions :=
      jsObjSet s.interactions name (InteractionDefinition.mkNew name species) }

/-- The rule-cloning loop at the top of the `Interaction` constructor: for
each index into the base definition's rules, if the base rule at that index
has an expression, the instance rule at the same index receives a fresh
structurally equal tree via `new_rule.set(old_rule.expression.toString())`
(parse of the printed tree; the round trip is the identity on the pure
tree, and `set` leaves the new rule's name `undefined`).  When the instance
has fewer rules than the base (fewer `v_args` than base rules), reading
`Object.keys(this.rules)[i_r]` yields `undefined` and `new_rule.set` throws
a `TypeError`, modelled by `none`.  JS object keys are unique, so
`rules[Object.keys(rules)[i]]` is the `i`-th entry. -/
def cloneRules (baseRules rules0 : List (String × Rule)) :
    Option (List (String × Rule)) :=
  (List.range baseRules.length).foldlM
    (fun rs i_r =>
      match baseRules.get? i_r with
      | none => some rs
      | some q =>
        match q.2.expression with
        | none => some rs
        | some e =>
          match rs.get? i_r with
          | none => none
          | some p => some (rs.set i_r (p.1, { name := none, expression := some e })))
    rules0

/-- The `Interaction(base, v_args, p_args)` constructor of the current
iteration: build the instance's rule map keyed by `v_args`, clone the base
rules into it, then validate the arguments (each failed validation does
`return`, leaving the partially built instance as constructed so far), and
finally substitute the bound global identifiers for the local variable and
parameter symbols in every rule expression.  The result is `none` exactly
when the constructor throws (see `cloneRules`); in every other case —
including every rejected validation — a constructed object is produced. -/
def mkInteraction (sys : WebSystem) (base : InteractionDefinition)
    (v_args p_args : List String) : Option InteractionDefinition :=
  let rules0 := v_args.foldl (fun r v => jsObjSet r v emptyRule) []
  (cloneRules base.rules rules0).map (fun rules1 =>
    let v_ids := variablesOf base
    let p_ids := parametersOf base
    if v_args.any (fun v => !(memb v (sys.species.map Prod.fst))) then
      ⟨base.name, rules1⟩
    else if p_args.any (fun p => !(memb p (sys.parameters.map Prod.fst))) then
      ⟨base.name, rules1⟩
    else if v_args.length ≠ v_ids.length then
      ⟨base.name, rules1⟩
    else if p_args.length ≠ p_ids.length then
      ⟨base.name, rules1⟩
    else
      let symbol_table :=
        (v_ids.zip v_args ++ p_ids.zip p_args).foldl
          (fun t kv => jsObjSet t kv.1 kv.2) []
      ⟨base.name,
        rules1.map (fun p =>
          (p.1, { p.2 with expression := p.2.expression.map (renameExpr symbol_table) }))⟩)

/-- `System.addInteraction(id, v_args, p_args)`: look up the definition,
run the `Interaction` constructor, and push the result onto
`_interactions` — unconditionally, whether or not the constructor's
validation rejected the arguments.  `none` models a thrown `TypeError`
(unknown definition id, or a throwing constructor), in which case the push
is not reached and the system is unchanged. -/
def addInteraction (s : WebSystem) (id : String) (v_args p_args : List String) :
    Option WebSystem :=
  match alookup id s.interactions with
  | none => none
  | some base =>
    (mkInteraction s base v_args p_args).map
      (fun i => { s with instances := s.instances ++ [i] })

/-- Reset step of `System.compile`: every species' `rate_law.expression` is
set back to `null`. -/
def resetRateLaws (species : List (String × Species)) : List (String × Species) :=
  species.map (fun p =>
    (p.1, { p.2 with rate_law := { p.2.rate_law with expression := none } }))

/-- One step of the aggregation loop of `System.compile`, for one
`(participant id, rule)` pair of one instance: if the rule's expression is
set, the participant species' rate law either receives a structural copy of
the expression (`clone()`, value-identical) or is replaced by
`OperatorNode('+','add',[previous, copy])`.  When the participant id names
no species the source throws (`participant.rate_law` on `undefined`),
modelled by `none`. -/
def aggPair (st : List (String × Species)) (p : String × Rule) :
    Option (List (String × Species)) :=
  match p.2.expression with
  | none => some st
  | some e =>
    match alookup p.1 st with
    | none => none
    | some sp =>
      let newExpr :=
        match sp.rate_law.expression with
        | none => e
        | some prev => Expr.binop "add" prev e
      some (st.map (fun q =>
        if q.1 = p.1 then
          (q.1, { q.2 with rate_law := { q.2.rate_law with expression := some newExpr } })
        else q))

/-- `System.compile()`: reset all rate laws, fold the live instances in
registration order (and each instance's rules in key order) through
`aggPair`, then write one compiled evaluator per species into `model` at
the species' declaration index — the compiled rate-law expression when one
was aggregated, `math.compile("0")` (the constant-zero evaluator) when the
species had no contribution. -/
def compileSystem (s : WebSystem) : Option WebSystem :=
  match s.instances.foldlM (fun st inst => inst.rules.foldlM aggPair st)
      (resetRateLaws s.species) with
  | none => none
  | some st =>
    let keys := st.map Prod.fst
    let model' := st.foldl
      (fun m p =>
        jsSetIdx m (idxOf p.1 keys)
          (some (p.2.rate_law.expression.getD (Expr.num 0))) none)
      s.model
    some { s with species := st, model := model' }

/-- The contributions a given species receives during `compile()`: the
substituted rule expressions targeted at it, over all live instances in
registration order and, within an instance, in rule-key order. -/
def contribsFor (insts : List InteractionDefinition) (sp : String) : List Expr :=
  insts.flatMap (fun inst =>
    inst.rules.filterMap (fun p => if p.1 = sp then p.2.expression else none))

/-- Left-associated additive aggregation of a list of terms:
`none` for no terms, otherwise `((t1 + t2) + t3) + ...` built from
`OperatorNode('+','add',·)` nodes. -/
def leftSum : List Expr → Option Expr
  | [] => none
  | e :: es => some (es.foldl (fun acc t => Expr.binop "add" acc t) e)

/-- The evaluation scope built by `System.dY`: first
`scope[species_ids[i]] = y[i]` for each index of the state vector, then
`scope[p] = parameters[p].value` for every parameter, each assignment a JS
object property write. -/
def dYScope (s : WebSystem) (y : List ℚ) : List (String × ℚ) :=
  let species_ids := s.species.map Prod.fst
  let sc1 := (List.range y.length).foldl
    (fun sc i => jsObjSet sc (species_ids.getD i "undefined") (y.getD i 0)) []
  s.parameters.foldl (fun sc p => jsObjSet sc p.1 p.2.value) sc1

/-- `System.dY(t, y, [system])`: build the scope, then evaluate
`model[i_y]` in it for every index of the state vector, returning the
derivative vector in the same order.  A missing model entry (`null`, hole
or out of range: `.eval` on a non-object throws) or a failing evaluation
yields `none`. -/
def dY (s : WebSystem) (t : ℚ) (y : List ℚ) : Option (List ℚ) :=
  let scope := dYScope s y
  (List.range y.length).mapM (fun i =>
    match s.model.getD i none with
    | none => none
    | some m => evalE scope m)

/-- A raw integrator result as returned by `numeric.dopri`: the time points
`x` and, for each time point, the state vector at that time (`y`).  The
integrator itself is the external collaborator; operations below take a
`Solution` where the source calls `numeric.dopri`. -/
structure Solution where
  x : List ℚ
  y : List (List ℚ)
deriving DecidableEq, Repr

/-- The integrator contract: one state vector per time point, each of the
dimension `d` that was integrated. -/
def WellFormedSol (sol : Solution) (d : Nat) : Prop :=
  sol.y.length = sol.x.length ∧ ∀ r ∈ sol.y, r.length = d

/-- Column `i` of `numeric.transpose(solution.y)`: the time series of the
`i`-th state variable. -/
def colOf (rows : List (List ℚ)) (i : Nat) : List ℚ :=
  rows.map (fun r => r.getD i 0)

/-- A `Simulation` object: the time points and, per species id, its
trajectory.  Trajectory samples are `Option ℚ` because `concat` pads a
species missing from one side with `undefined` (`none`) markers. -/
structure Simulation where
  time : List ℚ
  trajectory : List (String × List (Option ℚ))
deriving DecidableEq, Repr

/-- `new Simulation(system, null)` (the real-time driver's constructor
call): time starts as `[0]` and each species contributes the
single-sample trajectory `[species.value]`. -/
def simNew (sys : WebSystem) : Simulation :=
  { time := [0]
    trajectory :=
      sys.species.foldl (fun tr p => jsObjSet tr p.1 [some p.2.value]) [] }

/-- `Simulation.trim(buffer_size)`: compute `t0 = time[time.length-1] -
buffer_size` and `i_t0 = time.indexOf(t0)`, then `shift()` the first `i_t0`
samples off `time` and off every trajectory.  When `t0` is not exactly an
element of `time`, `indexOf` returns `-1` and nothing is removed; on an
empty `time` the cutoff is `NaN`, which also matches nothing. -/
def trim (buffer_size : ℚ) (s : Simulation) : Simulation :=
  match s.time.getLast? with
  | none => s
  | some tl =>
    if tl - buffer_size ∈ s.time then
      { time := s.time.drop (idxOf (tl - buffer_size) s.time)
        trajectory := s.trajectory.map (fun p => (p.1, p.2.drop (idxOf (tl - buffer_size) s.time))) }
    else s

/-- `Simulation.update_state(system, config, div)` with the external
integrator call abstracted by `sol` (the source gathers each trajectory's
last sample as the initial vector and integrates one `t_step`; the result
is `sol`): append column `keys.indexOf(id)` of the transposed solution to
each trajectory, append the time points shifted by the previous final time,
and trim when the buffered span exceeds `buffer_size`. -/
def update_state (buffer_size : ℚ) (s : Simulation) (sol : Solution) : Simulation :=
  let keys := s.trajectory.map Prod.fst
  let traj' := s.trajectory.map (fun p =>
    (p.1, p.2 ++ (colOf sol.y (idxOf p.1 keys)).map some))
  let t_offset := jsLast s.time
  let time' := s.time ++ sol.x.map (fun t => t + t_offset)
  let s' : Simulation := { time := time', trajectory := traj' }
  if time'.headD 0 + buffer_size < jsLast time' then trim buffer_size s' else s'

/-- Insertion of a string into a sorted list, for the JS `sort()` of
species keys in `Simulation.concat`. -/
def insSorted (a : String) : List String → List String
  | [] => [a]
  | b :: t => if a ≤ b then a :: b :: t else b :: insSorted a t

/-- JS `Array.prototype.sort()` on string keys (lexicographic). -/
def sortStr : List String → List String
  | [] => []
  | a :: t => insSorted a (sortStr t)

/-- The adjacent-duplicate elimination performed by the `reduce` scan in
`Simulation.concat` (the input is sorted, so this removes all
duplicates). -/
def dedupAdj (prev : String) : List String → List String
  | [] => []
  | b :: t => if b = prev then dedupAdj b t else b :: dedupAdj b t

/-- `Simulation.concat(other)`: union the two key sets (sort plus dedupe),
concatenate the two trajectories per key — padding a side that lacks the
key with an `Array(time.length)` of `undefined` samples (`concat` of a
plain `undefined`, the unreachable both-missing case, appends one
element) — and append `other`'s time points shifted by this simulation's
final time.  On two empty key sets `reduce` throws a `TypeError`, modelled
by `none`. -/
def concatSim (s other : Simulation) : Option Simulation :=
  let combined := sortStr (s.trajectory.map Prod.fst ++ other.trajectory.map Prod.fst)
  match combined with
  | [] => none
  | c0 :: rest =>
    let union := c0 :: dedupAdj c0 rest
    let traj := union.map (fun k =>
      match alookup k s.trajectory, alookup k other.trajectory with
      | none, some t2 => (k, (List.replicate s.time.length (none : Option ℚ)) ++ t2)
      | none, none => (k, (List.replicate s.time.length (none : Option ℚ)) ++ [none])
      | some t1, none => (k, t1 ++ List.replicate other.time.length (none : Option ℚ))
      | some t1, some t2 => (k, t1 ++ t2))
    let tf := jsLast s.time
    some { time := s.time ++ other.time.map (fun t => t + tf), trajectory := traj }

/-- Every `Simulation` state the system can reach: constructed by
`new Simulation(system, null)` (real-time driver), by the batch `simulate`
path (whose constructor call initializes no trajectories, see `simulate`),
or by `new Simulation(null, null)`; then evolved by `update_state` ticks
(with a well-formed integrator result), by `trim`, and by `concat`. -/
inductive ReachableSim : Simulation → Prop where
  | ctor_system (sys : WebSystem) : ReachableSim (simNew sys)
  | ctor_keys (sol : Solution) : ReachableSim { time := sol.x, trajectory := [] }
  | ctor_null : ReachableSim { time := [0], trajectory := [] }
  | tick (s : Simulation) (b : ℚ) (sol : Solution) (hs : ReachableSim s)
      (hwf : WellFormedSol sol s.trajectory.length) :
      ReachableSim (update_state b s sol)
  | trimmed (s : Simulation) (b : ℚ) (hs : ReachableSim s) :
      ReachableSim (trim b s)
  | concatenated (s other s3 : Simulation) (hs : ReachableSim s)
      (ho : ReachableSim other) (hc : concatSim s other = some s3) :
      ReachableSim s3

/-- The length-synchronization invariant: every trajectory is exactly as
long as the time sequence. -/
def syncedSim (s : Simulation) : Prop :=
  ∀ p ∈ s.trajectory, p.2.length = s.time.length

/-- `System.simulate(t0, tf)` with the `numeric.dopri` call abstracted by
`sol`: recompile each species' current rate law into `model` (constant zero
when unset) and gather current values as the initial vector; then
`new Simulation(Object.keys(this.species), solution)` — the constructor
receives the key array where it now expects a System, reads
`system.species` (which is `undefined` on an array) and therefore
initializes no trajectories; finally the write-back loop reads
`simulation.trajectory[sp].length` for each species, which throws a
`TypeError` (`none`) as soon as there is at least one species. -/
def simulate (s : WebSystem) (sol : Solution) : Option (WebSystem × Simulation) :=
  let model' := s.species.enum.foldl
    (fun m p => jsSetIdx m p.1 (some (p.2.2.rate_law.expression.getD (Expr.num 0))) none)
    s.model
  let sim : Simulation := { time := sol.x, trajectory := [] }
  match s.species.foldlM
      (fun acc p =>
        match alookup p.1 sim.trajectory with
        | none => none
        | some tr =>
          some (jsObjSet acc p.1
            { p.2 with value := ((tr.getLast?.getD none).getD 0) }))
      s.species with
  | none => none
  | some species' =>
    some ({ s with species := species', model := model' }, sim)

/-!
Heap model of mathjs node identity, for the no-aliasing claim about
binding/substitution.  Expression trees live in an addressed store: each
node is a cell referencing its children by address.  `math.parse` allocates
fresh cells (`allocExpr`), the in-place `node.name = ...` renaming of the
`Interaction` constructor overwrites cells (`renameAt`), and reading a tree
back (`readE`) recovers the pure `Expr` value.
-/

/-- A mathjs AST node in the addressed store; children are referenced by
address. -/
inductive HNode where
  | sym (name : String)
  | num (v : ℚ)
  | unop (fn : String) (a : Nat)
  | binop (fn : String) (a b : Nat)
deriving DecidableEq, Repr

/-- The child addresses of a node. -/
def nodeAddrs : HNode → List Nat
  | .sym _ => []
  | .num _ => []
  | .unop _ a => [a]
  | .binop _ a b => [a, b]

/-- The store of allocated nodes, with the next fresh address. -/
structure Heap where
  mem : List (Nat × HNode)
  next : Nat
deriving DecidableEq, Repr

/-- Cell lookup. -/
def hget (h : Heap) (a : Nat) : Option HNode :=
  alookup a h.mem

/-- Overwrite the cell at an (allocated) address, modelling an in-place
node mutation such as `node.name = ...`. -/
def writeCell (h : Heap) (a : Nat) (nd : HNode) : Heap :=
  { h with mem := h.mem.map (fun p => if p.1 = a then (a, nd) else p) }

/-- A heap is well formed when every allocated address and every child
reference is below the allocation watermark `next`. -/
def HeapWF (h : Heap) : Prop :=
  ∀ p ∈ h.mem, p.1 < h.next ∧ ∀ b ∈ nodeAddrs p.2, b < h.next

/-- `math.parse(text)` for a tree whose printed form parses back to the
pure value `e`: allocate one fresh cell per node, children before their
parent, and return the root address.  This is the external parser's
contract — a parse result is a brand-new tree. -/
def allocExpr : Expr → Heap → (Nat × Heap)
  | .sym n, h => (h.next, ⟨h.mem ++ [(h.next, .sym n)], h.next + 1⟩)
  | .num v, h => (h.next, ⟨h.mem ++ [(h.next, .num v)], h.next + 1⟩)
  | .unop f a, h =>
    ((allocExpr a h).2.next,
      ⟨(allocExpr a h).2.mem ++ [((allocExpr a h).2.next, .unop f (allocExpr a h).1)],
        (allocExpr a h).2.next + 1⟩)
  | .binop f a b, h =>
    ((allocExpr b (allocExpr a h).2).2.next,
      ⟨(allocExpr b (allocExpr a h).2).2.mem ++
        [((allocExpr b (allocExpr a h).2).2.next,
          .binop f (allocExpr a h).1 (allocExpr b (allocExpr a h).2).1)],
        (allocExpr b (allocExpr a h).2).2.next + 1⟩)

/-- Read the pure expression tree rooted at an address (fuel-bounded; a
tree of `n` nodes reads fully with any fuel of at least its depth). -/
def readE (h : Heap) : Nat → Nat → Option Expr
  | 0, _ => none
  | fuel + 1, a =>
    match hget h a with
    | some (.sym n) => some (.sym n)
    | some (.num v) => some (.num v)
    | some (.unop f b) => (readE h fuel b).map (Expr.unop f)
    | some (.binop f b c) => do
      let x ← readE h fuel b
      let y ← readE h fuel c
      some (.binop f x y)
    | none => none

/-- The addresses of the `SymbolNode`s reachable from a root, in `filter`
traversal order (fuel-bounded like `readE`): the node list the
`Interaction` constructor's substitution loop walks. -/
def collectSyms (h : Heap) : Nat → Nat → List Nat
  | 0, _ => []
  | fuel + 1, a =>
    match hget h a with
    | some (.sym _) => [a]
    | some (.unop _ b) => collectSyms h fuel b
    | some (.binop _ b c) => collectSyms h fuel b ++ collectSyms h fuel c
    | _ => []

/-- The substitution loop: for each collected symbol node in order, if its
name is a key of the symbol table, overwrite the cell in place with the
bound name. -/
def renameAt (table : List (String × String)) (h : Heap) : List Nat → Heap
  | [] => h
  | a :: t =>
    match hget h a with
    | some (.sym n) =>
      match alookup n table with
      | some m => renameAt table (writeCell h a (.sym m)) t
      | none => renameAt table h t
    | _ => renameAt table h t

/-- One rule's instantiation step in the `Interaction` constructor:
`new_rule.set(old_rule.expression.toString())` allocates a fresh copy of
the template tree (printed form parsed back), and the substitution loop
then renames the copy's symbol nodes in place. -/
def instantiateRule (table : List (String × String)) (e : Expr) (h : Heap) :
    Nat × Heap :=
  let r := (allocExpr e h).1
  let h1 := (allocExpr e h).2
  (r, renameAt table h1 (collectSyms h1 (exprSize e) r))

/-- The contributions a species receives from a flat list of
`(participant id, rule)` pairs, in order: the expressions of the pairs
keyed by it. -/
def contribsPairs (pairs : List (String × Rule)) (sp : String) : List Expr :=
  pairs.filterMap (fun p => if p.1 = sp then p.2.expression else none)

/-- The species map as it stands after `compile()` has reset all rate laws
and folded a given flat list of `(participant id, rule)` pairs through the
aggregation step: each species' rate law carries the left-associated sum
of its contributions so far. -/
def stateOf (species0 : List (String × Species)) (done : List (String × Rule)) :
    List (String × Species) :=
  species0.map (fun p =>
    (p.1, { p.2 with rate_law :=
      { p.2.rate_law with expression := leftSum (contribsPairs done p.1) } }))

/-- The value of the last entry with the given key (the value a sequence
of JS object property writes leaves behind for that key); a specification
device for reasoning about scope construction. -/
def lastVal [DecidableEq κ] (k : κ) : List (κ × α) → Option α
  | [] => none
  | p :: t => lastVal k t <|> (if p.1 = k then some p.2 else none)

/-!
Concrete inputs used by witnesses and counterexamples.
-/

/-- The parse tree of the template rule text `-k*a` (mathjs parses the
unary minus above the product's left factor). -/
def eDecay : Expr := .binop "multiply" (.unop "unaryMinus" (.sym "k")) (.sym "a")

/-- A system with one species `A`, one parameter `k`, and one interaction
definition `decay` over local variable `a` with rule `-k*a`. -/
def sys0 : WebSystem :=
  { species := [("A", { name := some "glucose", value := 10, rate_law := emptyRule })]
    parameters := [("k", { value := 1 / 2, name := some "rate" })]
    interactions :=
      [("decay", { name := "decay", rules := [("a", { name := none, expression := some eDecay })] })]
    instances := []
    model := [none] }

/-- A template whose single rule `k*a + k` mentions the parameter `k`
twice. -/
def exD4 : InteractionDefinition :=
  { name := "selfcat"
    rules := [("a",
      { name := none
        expression := some (.binop "add" (.binop "multiply" (.sym "k") (.sym "a")) (.sym "k")) })] }

/-- A two-rule template with overlapping parameter names: rule `b` is
`z*b + q` and rule `c` is `q*c + m`. -/
def exD4b : InteractionDefinition :=
  { name := "tworule"
    rules :=
      [("b",
        { name := none
          expression := some (.binop "add" (.binop "multiply" (.sym "z") (.sym "b")) (.sym "q")) }),
       ("c",
        { name := none
          expression := some (.binop "add" (.binop "multiply" (.sym "q") (.sym "c")) (.sym "m")) })] }

/-- A system with a single species `A` whose model is already compiled. -/
def sysC5 : WebSystem :=
  { species := [("A", { name := some "glucose", value := 10, rate_law := emptyRule })]
    parameters := []
    interactions := []
    instances := []
    model := [some (Expr.num 0)] }

/-- A fixed integrator result with two time points. -/
def sol0 : Solution := { x := [0, 1], y := [[10], [6]] }

/-- A system with two species and two live instances: the first instance
contributes `q` to `A`, the second contributes `3` to `A` and nothing to
`B`. -/
def sysE : WebSystem :=
  { species :=
      [("A", { name := none, value := 1, rate_law := emptyRule }),
       ("B", { name := none, value := 2, rate_law := emptyRule })]
    parameters := []
    interactions := []
    instances :=
      [{ name := "i1", rules := [("A", { name := none, expression := some (.sym "q") })] },
       { name := "i2"
         rules := [("A", { name := none, expression := some (.num 3) }),
                   ("B", { name := none, expression := none })] }]
    model := [none, none] }

/-- A system in which the identifier `x` names both a species (current
value 1) and a parameter (value 7), and whose single model entry is the
symbol `x`. -/
def sysD : WebSystem :=
  { species := [("x", { name := none, value := 1, rate_law := emptyRule })]
    parameters := [("x", { value := 7, name := none })]
    interactions := []
    instances := []
    model := [some (.sym "x")] }

/-- A buffer whose times span 0..25 but do not contain the cutoff 15
exactly. -/
def s7bad : Simulation :=
  { time := [0, 10, 25], trajectory := [("A", [some 1, some 2, some 3])] }

/-- A buffer whose times span 0..25 and contain the cutoff 15 exactly. -/
def s7good : Simulation :=
  { time := [0, 5, 15, 20, 25]
    trajectory := [("A", [some 1, some 2, some 3, some 4, some 5])] }

/-- A heap holding one allocated template tree, `-k*a`. -/
def h3base : Heap := (allocExpr eDecay ⟨[], 0⟩).2

/-- The binding of the `decay` template's local symbols for one
instantiation. -/
def tbl3 : List (String × String) := [("a", "Glucose"), ("k", "eta")]

/-!
Utility lemmas about the JS-object embedding.
-/

theorem memb_iff (n : String) (l : List String) : memb n l = true ↔ n ∈ l := by
  induction l with
  | nil => simp [memb]
  | cons a t ih =>
    simp only [memb, List.mem_cons]
    by_cases h : a = n
    · subst h; simp
    · rw [if_neg h, ih]
      constructor
      · exact fun hm => Or.inr hm
      · rintro (he | hm)
        · exact absurd he.symm h
        · exact hm

theorem alookup_append [DecidableEq κ] (k : κ) (l1 l2 : List (κ × α)) :
    alookup k (l1 ++ l2) = (alookup k l1 <|> alookup k l2) := by
  induction l1 with
  | nil => simp [alookup]
  | cons p t ih =>
    by_cases h : p.1 = k <;> simp [alookup, h, ih]

theorem alookup_eq_none_iff [DecidableEq κ] (k : κ) (l : List (κ × α)) :
    alookup k l = none ↔ k ∉ l.map Prod.fst := by
  induction l with
  | nil => simp [alookup]
  | cons p t ih =>
    by_cases h : p.1 = k
    · simp only [alookup, if_pos h, List.map_cons, List.mem_cons]
      constructor
      · intro hc; exact absurd hc (by simp)
      · intro hc; exact absurd (Or.inl h.symm) hc
    · simp only [alookup, if_neg h, List.map_cons, List.mem_cons]
      rw [ih]
      constructor
      · intro hk
        rintro (he | hm)
        · exact h he.symm
        · exact hk hm
      · intro hk hm
        exact hk (Or.inr hm)

theorem alookup_mem [DecidableEq κ] {k : κ} {l : List (κ × α)} {v : α}
    (h : alookup k l = some v) : (k, v) ∈ l := by
  induction l with
  | nil => simp [alookup] at h
  | cons p t ih =>
    rcases p with ⟨pk, pv⟩
    by_cases hp : pk = k
    · subst hp
      have h' : pv = v := by simpa [alookup] using h
      subst h'
      exact List.mem_cons_self _ _
    · have h' : alookup k t = some v := by simpa [alookup, hp] using h
      exact List.mem_cons_of_mem _ (ih h')

theorem alookup_of_mem_nodup [DecidableEq κ] {k : κ} {l : List (κ × α)} {v : α}
    (hmem : (k, v) ∈ l) (hnd : (l.map Prod.fst).Nodup) : alookup k l = some v := by
  induction l with
  | nil => simp at hmem
  | cons p t ih =>
    simp only [List.map_cons, List.nodup_cons] at hnd
    rcases List.mem_cons.mp hmem with h | h
    · subst h
      simp [alookup]
    · have hk : p.1 ≠ k := by
        intro he
        exact hnd.1 (he ▸ List.mem_map_of_mem Prod.fst h)
      simp [alookup, hk, ih h hnd.2]

theorem alookup_jsObjSet (l : List (String × α)) (k k' : String) (v : α) :
    alookup k' (jsObjSet l k v) = if k' = k then some v else alookup k' l := by
  induction l with
  | nil =>
    simp only [jsObjSet]
    by_cases h : k' = k
    · simp [alookup, h]
    · have hkk : ¬ (k = k') := fun he => h he.symm
      simp [alookup, h, hkk]
  | cons p t ih =>
    by_cases hp : p.1 = k
    · simp only [jsObjSet, if_pos hp]
      by_cases h : k' = k
      · simp [alookup, h]
      · have hkk : ¬ (k = k') := fun he => h he.symm
        have hp' : ¬ (p.1 = k') := by rw [hp]; exact hkk
        simp [alookup, hkk, hp', h]
    · simp only [jsObjSet, if_neg hp]
      by_cases h : k' = k
      · subst h
        simp [alookup, hp, ih]
      · by_cases hpk' : p.1 = k'
        · simp [alookup, hpk', h]
        · simp [alookup, hpk', ih, h]

theorem jsObjSet_keys_mem (l : List (String × α)) (k : String) (v : α)
    (h : k ∈ l.map Prod.fst) :
    (jsObjSet l k v).map Prod.fst = l.map Prod.fst := by
  induction l with
  | nil => simp at h
  | cons p t ih =>
    by_cases hp : p.1 = k
    · simp [jsObjSet, hp]
    · have : k ∈ t.map Prod.fst := by
        rcases List.mem_map.mp h with ⟨q, hq, he⟩
        rcases List.mem_cons.mp hq with h1 | h1
        · exact absurd (h1 ▸ he) hp
        · exact he ▸ List.mem_map_of_mem Prod.fst h1
      simp [jsObjSet, hp, ih this]

theorem jsObjSet_length_mem (l : List (String × α)) (k : String) (v : α)
    (h : k ∈ l.map Prod.fst) :
    (jsObjSet l k v).length = l.length := by
  have := jsObjSet_keys_mem l k v h
  have h1 : ((jsObjSet l k v).map Prod.fst).length = (l.map Prod.fst).length := by rw [this]
  simpa using h1

theorem mem_jsObjSet (l : List (String × α)) (k : String) (v : α) (p : String × α)
    (h : p ∈ jsObjSet l k v) : p ∈ l ∨ p.2 = v := by
  induction l with
  | nil => simp [jsObjSet] at h; simp [h]
  | cons q t ih =>
    by_cases hq : q.1 = k
    · simp [jsObjSet, hq] at h
      rcases h with h | h
      · right; simp [h]
      · left; exact List.mem_cons_of_mem _ h
    · simp [jsObjSet, hq] at h
      rcases h with h | h
      · left; simp [h]
      · rcases ih h with h1 | h1
        · left; exact List.mem_cons_of_mem _ h1
        · right; exact h1

theorem idxOf_lt_length [DecidableEq α] {v : α} {l : List α} (h : v ∈ l) :
    idxOf v l < l.length := by
  induction l with
  | nil => simp at h
  | cons a t ih =>
    by_cases ha : a = v
    · simp [idxOf, ha]
    · have : v ∈ t := by
        rcases List.mem_cons.mp h with h1 | h1
        · exact absurd h1.symm ha
        · exact h1
      simp only [idxOf, if_neg ha, List.length_cons]
      exact Nat.succ_lt_succ (ih this)

theorem drop_idxOf_sorted {l : List ℚ} {v : ℚ}
    (hs : l.Pairwise (· < ·)) (hm : v ∈ l) :
    l.drop (idxOf v l) = l.filter (fun t => v ≤ t) := by
  induction l with
  | nil => simp at hm
  | cons a t ih =>
    rcases List.pairwise_cons.mp hs with ⟨ha, ht⟩
    by_cases hav : a = v
    · subst hav
      have : ∀ x ∈ a :: t, (fun t => decide (a ≤ t)) x = true := by
        intro x hx
        rcases List.mem_cons.mp hx with h1 | h1
        · simp [h1]
        · simp [le_of_lt (ha x h1)]
      simp [idxOf, List.filter_eq_self.mpr this]
    · have hvt : v ∈ t := by
        rcases List.mem_cons.mp hm with h1 | h1
        · exact absurd h1.symm hav
        · exact h1
      have hva : ¬ (v ≤ a) := not_le.mpr (ha v hvt)
      simp only [idxOf, if_neg hav, List.drop_succ_cons, List.filter_cons,
        decide_eq_true_eq, if_neg hva]
      simpa using ih ht hvt

/-!
The `parameters()` scan.
-/

theorem memb_false_iff (n : String) (l : List String) : memb n l = false ↔ n ∉ l := by
  constructor
  · intro hf hm
    rw [(memb_iff n l).mpr hm] at hf
    cases hf
  · intro hnm
    cases h : memb n l
    · rfl
    · exact absurd ((memb_iff n l).mp h) hnm

theorem mem_paramFilter (e : Expr) (vars ps : List String) (x : String) :
    x ∈ (exprSyms e).filter (fun n => !(memb n vars) && !(memb n ps)) ↔
      x ∈ exprSyms e ∧ x ∉ vars ∧ x ∉ ps := by
  simp [List.mem_filter, Bool.and_eq_true, Bool.not_eq_true', memb_false_iff]

theorem paramsFold_mem (vars : List String) (rules : List (String × Rule))
    (acc : List String) (x : String) :
    x ∈ rules.foldl
        (fun ps p =>
          match p.2.expression with
          | some e => ps ++ (exprSyms e).filter (fun n => !(memb n vars) && !(memb n ps))
          | none => ps)
        acc ↔
      x ∈ acc ∨ (x ∉ vars ∧ ∃ p ∈ rules, ∃ e, p.2.expression = some e ∧ x ∈ exprSyms e) := by
  induction rules generalizing acc with
  | nil => simp
  | cons r t ih =>
    rw [List.foldl_cons]
    cases hpe : r.2.expression with
    | none =>
      simp only [hpe]
      rw [ih]
      constructor
      · rintro (h | h)
        · exact Or.inl h
        · exact Or.inr ⟨h.1, by
            rcases h.2 with ⟨p, hp, e, he, hx⟩
            exact ⟨p, List.mem_cons_of_mem _ hp, e, he, hx⟩⟩
      · rintro (h | ⟨hv, p, hp, e, he, hx⟩)
        · exact Or.inl h
        · rcases List.mem_cons.mp hp with h1 | h1
          · subst h1
            rw [hpe] at he
            exact absurd he (by simp)
          · exact Or.inr ⟨hv, p, h1, e, he, hx⟩
    | some e0 =>
      simp only [hpe]
      rw [ih]
      constructor
      · rintro (h | h)
        · rcases List.mem_append.mp h with h1 | h1
          · exact Or.inl h1
          · rcases (mem_paramFilter e0 vars acc x).mp h1 with ⟨hs, hv, _⟩
            exact Or.inr ⟨hv, r, List.mem_cons_self _ _, e0, hpe, hs⟩
        · rcases h.2 with ⟨p, hp, e, he, hx⟩
          exact Or.inr ⟨h.1, p, List.mem_cons_of_mem _ hp, e, he, hx⟩
      · rintro (h | ⟨hv, p, hp, e, he, hx⟩)
        · exact Or.inl (List.mem_append.mpr (Or.inl h))
        · rcases List.mem_cons.mp hp with h1 | h1
          · subst h1
            rw [hpe] at he
            injection he with he'
            have hx0 : x ∈ exprSyms e0 := by rw [he']; exact hx
            by_cases hacc : x ∈ acc
            · exact Or.inl (List.mem_append.mpr (Or.inl hacc))
            · exact Or.inl (List.mem_append.mpr (Or.inr
                ((mem_paramFilter e0 vars acc x).mpr ⟨hx0, hv, hacc⟩)))
          · exact Or.inr ⟨hv, p, h1, e, he, hx⟩

theorem parametersOf_mem (d : InteractionDefinition) (x : String) :
    x ∈ parametersOf d ↔
      x ∉ variablesOf d ∧
        ∃ p ∈ d.rules, ∃ e, p.2.expression = some e ∧ x ∈ exprSyms e := by
  have h := paramsFold_mem (variablesOf d) d.rules [] x
  simp only [List.not_mem_nil, false_or] at h
  rw [parametersOf]
  exact h

/-- C4 (counterexample): on the template `exD4`, whose single rule
`k*a + k` mentions the parameter symbol `k` twice, `parameters()` returns
`["k", "k"]` — the name appears twice, refuting "each name appearing at
most once" (the accumulated array is only consulted between rules, never
within one rule's scan). -/
theorem parametersOf_duplicate_within_rule :
    parametersOf exD4 = ["k", "k"] ∧ ¬ (parametersOf exD4).Nodup := by
  constructor
  · rfl
  · decide

/-- C4 (amended): `parameters()` returns exactly the symbol names
referenced in the rules' expressions that are not variable symbols, in
first-occurrence order scanning rules in declaration order, with a name
already collected from an earlier rule skipped but repeated occurrences
within a single rule all retained; the order is a pure function of rule
content and insertion order, not alphabetical, as the fixed two-rule
overlapping example `exD4b` shows literally (`["z", "q", "m"]`, with the
duplicate `q` of the second rule suppressed and no alphabetical
reordering). -/
theorem parametersOf_first_seen :
    (∀ (d : InteractionDefinition) (x : String),
        x ∈ parametersOf d ↔
          x ∉ variablesOf d ∧
            ∃ p ∈ d.rules, ∃ e, p.2.expression = some e ∧ x ∈ exprSyms e) ∧
      parametersOf exD4b = ["z", "q", "m"] :=
  ⟨parametersOf_mem, by rfl⟩

/-!
Claims about `addInteraction`, `simulate` and `addSpecies`.
-/

/-- C1: evaluating `addInteraction` at a rejected call.  In the system
`sys0` (species `A`, parameter `k`, template `decay` with rule `-k*a`),
the call `addInteraction("decay", ["B"], ["k"])` must be rejected — `B`
names no species — yet the live instance count grows from 0 to 1: the
constructor's early `return` still yields the partially built object and
`addInteraction` pushes it unconditionally.  The species map and parameter
map are unchanged, so the claim's "no mutation" fails exactly in the live
instance count. -/
theorem addInteraction_rejected_still_pushed :
    (addInteraction sys0 "decay" ["B"] ["k"]).map
        (fun s' => (s'.instances.length, s'.species, s'.parameters)) =
      some (sys0.instances.length + 1, sys0.species, sys0.parameters) := by
  rfl

/-- C5: evaluating `simulate` at a system with one species.  The source
passes `Object.keys(this.species)` to a `Simulation` constructor that now
expects a System; `system.species` is `undefined` on the key array, so no
trajectory is initialized, and the write-back loop then throws a
`TypeError` reading `simulation.trajectory["A"].length`.  The call fails
instead of returning a trajectory keyed by species id and writing final
values back. -/
theorem simulate_throws_on_write_back : simulate sysC5 sol0 = none := by
  rfl

theorem get?_set_lt (l : List α) (i : Nat) (v : α) (h : i < l.length) :
    (l.set i v).get? i = some v := by
  induction l generalizing i with
  | nil => simp at h
  | cons a t ih =>
    cases i with
    | zero => simp
    | succ j =>
      simp only [List.set_cons_succ, List.get?_cons_succ]
      exact ih j (Nat.lt_of_succ_lt_succ h)

/-- C9: `addSpecies` with an already-registered identifier replaces the
`Species` object (fresh value and fresh unset rate law), leaves the key
set, the species count and the model length unchanged, and overwrites the
model slot at index `species count − 1` with `null` instead of appending a
new slot. -/
theorem addSpecies_existing_replaces (s : WebSystem) (id : String) (v : ℚ)
    (nm : Option String) (hmem : id ∈ s.species.map Prod.fst)
    (hlen : s.model.length = s.species.length) :
    ((addSpecies s id v nm).species.map Prod.fst = s.species.map Prod.fst) ∧
      alookup id (addSpecies s id v nm).species = some (Species.mkNew v nm) ∧
      (addSpecies s id v nm).species.length = s.species.length ∧
      (addSpecies s id v nm).model.length = s.model.length ∧
      (addSpecies s id v nm).model.get? (s.species.length - 1) = some none ∧
      ∀ k, k ≠ id → alookup k (addSpecies s id v nm).species = alookup k s.species := by
  have hkeys := jsObjSet_keys_mem s.species id (Species.mkNew v nm) hmem
  have hlen' := jsObjSet_length_mem s.species id (Species.mkNew v nm) hmem
  have hpos : 0 < s.species.length := by
    have : 0 < (s.species.map Prod.fst).length := List.length_pos_of_mem hmem
    simpa using this
  have hidx : s.species.length - 1 < s.model.length := by
    rw [hlen]
    exact Nat.sub_lt hpos Nat.one_pos
  refine ⟨hkeys, ?_, hlen', ?_, ?_, ?_⟩
  · rw [show (addSpecies s id v nm).species = jsObjSet s.species id (Species.mkNew v nm) from rfl]
    rw [alookup_jsObjSet]
    simp
  · show (jsSetIdx s.model ((jsObjSet s.species id (Species.mkNew v nm)).length - 1) none none).length = s.model.length
    have hidx2 : s.model.length - 1 < s.model.length :=
      Nat.sub_lt (by rw [hlen]; exact hpos) Nat.one_pos
    rw [hlen', ← hlen, jsSetIdx, if_pos hidx2, List.length_set]
  · show (jsSetIdx s.model ((jsObjSet s.species id (Species.mkNew v nm)).length - 1) none none).get? (s.species.length - 1) = some none
    have hidx2 : s.model.length - 1 < s.model.length :=
      Nat.sub_lt (by rw [hlen]; exact hpos) Nat.one_pos
    rw [hlen', ← hlen, jsSetIdx, if_pos hidx2]
    exact get?_set_lt _ _ _ hidx2
  · intro k hk
    show alookup k (jsObjSet s.species id (Species.mkNew v nm)) = alookup k s.species
    rw [alookup_jsObjSet, if_neg hk]

/-- C9 (witness): the hypotheses of `addSpecies_existing_replaces` hold at
`sysC5` with identifier `A`, and the conclusion follows by applying the
theorem there. -/
theorem addSpecies_existing_replaces_witness :
    ("A" ∈ sysC5.species.map Prod.fst ∧ sysC5.model.length = sysC5.species.length) ∧
      alookup "A" (addSpecies sysC5 "A" 3 none).species = some (Species.mkNew 3 none) ∧
      (addSpecies sysC5 "A" 3 none).model.get? 0 = some none :=
  ⟨⟨by decide, by decide⟩,
    (addSpecies_existing_replaces sysC5 "A" 3 none (by decide) (by decide)).2.1,
    (addSpecies_existing_replaces sysC5 "A" 3 none (by decide) (by decide)).2.2.2.2.1⟩

/-!
The `trim` step of the state buffer.
-/

unseal Rat.sub in
/-- C7 (counterexample): `trim` locates the cutoff with an exact
`indexOf(latest - buffer_size)`.  On the buffer `s7bad`, whose times span
0..25 with `buffer_size = 10`, the cutoff 15 is not an element of the time
sequence, so nothing at all is dropped: the sample at time 0, although
less than 15, is still present after the trim — refuting "exactly the
leading samples whose time is less than latest_time minus buffer_size have
been dropped". -/
theorem trim_misses_inexact_cutoff :
    trim 10 s7bad = s7bad ∧ (0 : ℚ) ∈ (trim 10 s7bad).time ∧ (0 : ℚ) < 25 - 10 := by
  refine ⟨by decide, by decide, by decide⟩

/-- C7 (amended): when the cutoff `latest_time − buffer_size` occurs
exactly in the (strictly increasing) time sequence, `trim` drops exactly
the leading samples whose time is less than the cutoff, from the time
sequence and from every trajectory alike, and trajectories that had the
time sequence's length keep it; when the cutoff does not occur exactly,
nothing is dropped (see the counterexample). -/
theorem trim_drops_exact_cutoff (s : Simulation) (b tl : ℚ)
    (hs : s.time.Pairwise (· < ·)) (hl : s.time.getLast? = some tl)
    (hm : tl - b ∈ s.time) :
    (trim b s).time = s.time.filter (fun x => tl - b ≤ x) ∧
      (trim b s).trajectory =
        s.trajectory.map (fun p => (p.1, p.2.drop (idxOf (tl - b) s.time))) ∧
      ∀ p ∈ s.trajectory, p.2.length = s.time.length →
        (p.2.drop (idxOf (tl - b) s.time)).length = (trim b s).time.length := by
  have ht : trim b s =
      { time := s.time.drop (idxOf (tl - b) s.time)
        trajectory := s.trajectory.map (fun p => (p.1, p.2.drop (idxOf (tl - b) s.time))) } := by
    rw [trim, hl]
    simp only [if_pos hm]
  refine ⟨?_, ?_, ?_⟩
  · rw [ht]
    exact drop_idxOf_sorted hs hm
  · rw [ht]
  · intro p _ hp
    rw [ht]
    simp only [List.length_drop, hp]

unseal Rat.sub in
/-- C7 (witness): on the buffer `s7good`, whose times `[0, 5, 15, 20, 25]`
span 0..25 and contain the cutoff `25 − 10 = 15` exactly, the amended
theorem applies, and evaluating the trim shows only the samples with time
at least 15 remain, time and trajectory equally long. -/
theorem trim_drops_exact_cutoff_witness :
    (s7good.time.Pairwise (· < ·) ∧ s7good.time.getLast? = some 25 ∧
        (25 : ℚ) - 10 ∈ s7good.time) ∧
      (trim 10 s7good).time = s7good.time.filter (fun x => (25 : ℚ) - 10 ≤ x) ∧
      (trim 10 s7good).time = [15, 20, 25] :=
  ⟨⟨by decide, by decide, by decide⟩,
    (trim_drops_exact_cutoff s7good 10 25 (by decide) (by decide) (by decide)).1,
    by decide⟩

/-!
The derivative function `dY` and its evaluation scope.
-/

theorem alookup_scopefold (kvs : List (String × α)) (init : List (String × α))
    (k : String) :
    alookup k (kvs.foldl (fun sc p => jsObjSet sc p.1 p.2) init) =
      (lastVal k kvs <|> alookup k init) := by
  induction kvs generalizing init with
  | nil => simp [lastVal]
  | cons p t ih =>
    rw [List.foldl_cons, ih, lastVal]
    rw [alookup_jsObjSet]
    cases hlv : lastVal k t with
    | some v => simp
    | none =>
      by_cases h : p.1 = k
      · simp [h, eq_comm]
      · have h' : ¬ (k = p.1) := fun he => h he.symm
        simp [h, h']

theorem lastVal_eq_none [DecidableEq κ] {k : κ} {l : List (κ × α)}
    (h : k ∉ l.map Prod.fst) : lastVal k l = none := by
  induction l with
  | nil => rfl
  | cons p t ih =>
    simp only [List.map_cons, List.mem_cons] at h
    push_neg at h
    have hne : ¬ p.1 = k := fun he => h.1 he.symm
    rw [lastVal, ih h.2, if_neg hne]
    rfl

theorem lastVal_isSome_of_mem [DecidableEq κ] {k : κ} {l : List (κ × α)}
    (h : k ∈ l.map Prod.fst) : ∃ v, lastVal k l = some v := by
  induction l with
  | nil => simp at h
  | cons p t ih =>
    rw [lastVal]
    by_cases ht : k ∈ t.map Prod.fst
    · rcases ih ht with ⟨v, hv⟩
      exact ⟨v, by simp [hv]⟩
    · have hp : p.1 = k := by
        simp only [List.map_cons, List.mem_cons] at h
        rcases h with h | h
        · exact h.symm
        · exact absurd h ht
      exact ⟨p.2, by simp [lastVal_eq_none ht, hp]⟩

theorem lastVal_of_nodup [DecidableEq κ] {k : κ} {l : List (κ × α)} {v : α}
    (hnd : (l.map Prod.fst).Nodup) (h : alookup k l = some v) :
    lastVal k l = some v := by
  induction l with
  | nil => simp [alookup] at h
  | cons p t ih =>
    simp only [List.map_cons, List.nodup_cons] at hnd
    by_cases hp : p.1 = k
    · have hv : p.2 = v := by simpa [alookup, hp] using h
      have hkt : k ∉ t.map Prod.fst := hp ▸ hnd.1
      rw [lastVal, lastVal_eq_none hkt]
      simp [hp, hv]
    · have h' : alookup k t = some v := by simpa [alookup, hp] using h
      rw [lastVal, ih hnd.2 h']
      simp

theorem map_fst_zip_sub {α β : Type} (l : List α) (l' : List β) (x : α)
    (h : x ∈ (l.zip l').map Prod.fst) : x ∈ l := by
  induction l generalizing l' with
  | nil => simp at h
  | cons a t ih =>
    cases l' with
    | nil => simp at h
    | cons b t' =>
      simp only [List.zip_cons_cons, List.map_cons, List.mem_cons] at h
      rcases h with h | h
      · exact h ▸ List.mem_cons_self _ _
      · exact List.mem_cons_of_mem _ (ih t' h)

theorem lastVal_zip_nodup {ids : List String} {y : List ℚ} {i : Nat} {id : String}
    (hnd : ids.Nodup) (hid : ids.get? i = some id) :
    lastVal id (ids.zip y) = y.get? i := by
  induction ids generalizing y i with
  | nil => simp at hid
  | cons a t ih =>
    rcases List.nodup_cons.mp hnd with ⟨hat, hndt⟩
    cases y with
    | nil =>
      simp only [List.zip_nil_right, lastVal]
      cases i <;> simp
    | cons b yt =>
      cases i with
      | zero =>
        have ha : a = id := by simpa using hid
        subst ha
        have hzn : a ∉ (t.zip yt).map Prod.fst := fun hm => hat (map_fst_zip_sub t yt a hm)
        rw [List.zip_cons_cons, lastVal, lastVal_eq_none hzn]
        have hcond : (if ((a, b) : String × ℚ).1 = a then some ((a, b) : String × ℚ).2 else none) = some b := by
          rw [if_pos rfl]
        rw [hcond]
        rfl
      | succ j =>
        have hid' : t.get? j = some id := by simpa using hid
        have hmem : id ∈ t := List.get?_mem hid'
        have hne : ¬ (a = id) := fun he => hat (he ▸ hmem)
        rw [List.zip_cons_cons, lastVal]
        have hcond : (if ((a, b) : String × ℚ).1 = id then some ((a, b) : String × ℚ).2 else none) = none := by
          rw [if_neg hne]
        rw [hcond, ih hndt hid', List.get?_cons_succ]
        cases h : yt.get? j <;> rfl

theorem speciesPairs_eq_zip (ids : List String) (y : List ℚ) (d : String)
    (hlen : y.length = ids.length) :
    (List.range y.length).map (fun i => (ids.getD i d, y.getD i 0)) = ids.zip y := by
  apply List.ext_getElem
  · simp [hlen, Nat.min_self]
  · intro i h1 h2
    simp only [List.getElem_map, List.getElem_range, List.getElem_zip]
    have hi : i < y.length := by simpa using h1
    have hi2 : i < ids.length := by rw [← hlen]; exact hi
    rw [List.getD_eq_getElem _ _ hi2, List.getD_eq_getElem _ _ hi]

theorem alookup_map_snd [DecidableEq κ] (l : List (κ × α)) (g : α → β) (k : κ) :
    alookup k (l.map (fun p => (p.1, g p.2))) = (alookup k l).map g := by
  induction l with
  | nil => simp [alookup]
  | cons p t ih =>
    by_cases h : p.1 = k <;> simp [alookup, h, ih]

theorem dYScope_alookup (s : WebSystem) (y : List ℚ) (k : String) :
    alookup k (dYScope s y) =
      (lastVal k (s.parameters.map (fun p => (p.1, p.2.value))) <|>
        lastVal k ((List.range y.length).map
          (fun i => ((s.species.map Prod.fst).getD i "undefined", y.getD i 0)))) := by
  rw [dYScope]
  have h1 : s.parameters.foldl (fun sc p => jsObjSet sc p.1 p.2.value)
      ((List.range y.length).foldl
        (fun sc i => jsObjSet sc ((s.species.map Prod.fst).getD i "undefined") (y.getD i 0)) []) =
      (s.parameters.map (fun p => (p.1, p.2.value))).foldl (fun sc p => jsObjSet sc p.1 p.2)
      (((List.range y.length).map
        (fun i => ((s.species.map Prod.fst).getD i "undefined", y.getD i 0))).foldl
        (fun sc p => jsObjSet sc p.1 p.2) []) := by
    rw [List.foldl_map, List.foldl_map]
  rw [h1, alookup_scopefold, alookup_scopefold]
  simp [alookup]

/-- The scope built by `dY` binds an identifier that names a parameter to
that parameter's value (species writes happen first and are overwritten). -/
theorem scope_binds_parameter (s : WebSystem) (y : List ℚ) (id : String)
    (pv : Parameter) (hp : alookup id s.parameters = some pv)
    (hN : (s.parameters.map Prod.fst).Nodup) :
    alookup id (dYScope s y) = some pv.value := by
  rw [dYScope_alookup]
  have hm : alookup id (s.parameters.map (fun p => (p.1, p.2.value))) = some pv.value := by
    rw [alookup_map_snd, hp]
    rfl
  have hnd2 : ((s.parameters.map (fun p => (p.1, p.2.value))).map Prod.fst).Nodup := by
    have : (s.parameters.map (fun p => (p.1, p.2.value))).map Prod.fst =
        s.parameters.map Prod.fst := by
      simp
    rw [this]
    exact hN
  rw [lastVal_of_nodup hnd2 hm]
  simp

theorem mapM_option_spec {α β : Type} (f : α → Option β) (l : List α) (r : List β)
    (h : l.mapM f = some r) :
    r.length = l.length ∧ ∀ j, j < l.length → ∃ a, l.get? j = some a ∧ f a = r.get? j := by
  induction l generalizing r with
  | nil =>
    simp only [List.mapM_nil, Option.pure_def, Option.some.injEq] at h
    subst h
    exact ⟨rfl, by intro j hj; simp at hj⟩
  | cons a t ih =>
    rw [List.mapM_cons] at h
    cases hf : f a with
    | none => rw [hf] at h; simp at h
    | some b =>
      rw [hf] at h
      cases hr : t.mapM f with
      | none => rw [hr] at h; simp at h
      | some rt =>
        rw [hr] at h
        simp only [Option.pure_def, Option.bind_eq_bind, Option.some_bind,
          Option.some.injEq] at h
        subst h
        rcases ih rt hr with ⟨hlen, hspec⟩
        refine ⟨by simp [hlen], ?_⟩
        intro j hj
        cases j with
        | zero => exact ⟨a, rfl, by simp [hf]⟩
        | succ j' =>
          rcases hspec j' (Nat.lt_of_succ_lt_succ hj) with ⟨x, hx1, hx2⟩
          exact ⟨x, by simpa using hx1, by simpa using hx2⟩

/-- C6: `dY` builds its scope by binding the `i`-th species id to `y[i]`
and then overriding with every parameter id bound to its current value;
it evaluates the model entries in that scope and returns the derivative
vector in the same species order.  Stated as: (a) any id naming a
parameter reads as that parameter's value in the scope, (b) a declared
species id that names no parameter reads as the corresponding component of
`y`, and (c) a successful `dY` call returns one entry per state component,
the `i`-th being the evaluation of the `i`-th model entry (the `i`-th
species' compiled rate law) in that scope. -/
theorem dY_scope_and_order (s : WebSystem) (t : ℚ) (y : List ℚ)
    (hN : (s.parameters.map Prod.fst).Nodup)
    (hNs : (s.species.map Prod.fst).Nodup)
    (hlen : y.length = s.species.length) :
    (∀ id pv, alookup id s.parameters = some pv →
        alookup id (dYScope s y) = some pv.value) ∧
      (∀ i id, (s.species.map Prod.fst).get? i = some id →
        id ∉ s.parameters.map Prod.fst → alookup id (dYScope s y) = y.get? i) ∧
      ∀ dy, dY s t y = some dy →
        dy.length = y.length ∧
          ∀ i, i < y.length →
            ∃ m, s.model.getD i none = some m ∧ evalE (dYScope s y) m = dy.get? i := by
  refine ⟨?_, ?_, ?_⟩
  · intro id pv hp
    exact scope_binds_parameter s y id pv hp hN
  · intro i id hid hnp
    rw [dYScope_alookup]
    have hlen' : y.length = (s.species.map Prod.fst).length := by simpa using hlen
    rw [speciesPairs_eq_zip _ _ _ hlen']
    have h1 : id ∉ (s.parameters.map (fun p => (p.1, p.2.value))).map Prod.fst := by
      simpa using hnp
    rw [lastVal_eq_none h1, lastVal_zip_nodup hNs hid]
    simp
  · intro dy hdy
    rw [dY] at hdy
    rcases mapM_option_spec _ _ _ hdy with ⟨hlen2, hspec⟩
    refine ⟨by simpa using hlen2, ?_⟩
    intro i hi
    rcases hspec i (by simpa using hi) with ⟨a, ha1, ha2⟩
    have ha : a = i := by
      have := List.get?_range (by simpa using hi : i < y.length)
      rw [this] at ha1
      exact (Option.some.injEq _ _ ▸ ha1).symm
    subst ha
    cases hm : s.model.getD a none with
    | none =>
      rw [hm] at ha2
      have : dy.get? a = none := ha2.symm
      have hlt : a < dy.length := by rw [hlen2]; simpa using hi
      rw [List.get?_eq_getElem? ] at this
      rw [List.getElem?_eq_getElem hlt] at this
      simp at this
    | some m =>
      rw [hm] at ha2
      exact ⟨m, rfl, ha2⟩

/-- C6 (witness): the hypotheses of `dY_scope_and_order` hold at the
concrete system `sysD` with `y = [3]`, and the theorem applies there. -/
theorem dY_scope_and_order_witness :
    ((sysD.parameters.map Prod.fst).Nodup ∧ (sysD.species.map Prod.fst).Nodup ∧
        [(3 : ℚ)].length = sysD.species.length) ∧
      (∀ id pv, alookup id sysD.parameters = some pv →
        alookup id (dYScope sysD [(3 : ℚ)]) = some pv.value) :=
  ⟨⟨by decide, by decide, by decide⟩,
    (dY_scope_and_order sysD 0 [(3 : ℚ)] (by decide) (by decide) (by decide)).1⟩

theorem lastVal_congr [DecidableEq κ] (k : κ) {l l' : List (κ × α)}
    (h : List.Forall₂ (fun p q => p.1 = q.1 ∧ (p.1 = k → p.2 = q.2)) l l') :
    lastVal k l = lastVal k l' := by
  induction h with
  | nil => rfl
  | @cons p q l1 l2 hpq htail ih =>
    rw [lastVal, lastVal, ih]
    rcases hpq with ⟨h1, h2⟩
    by_cases hk : p.1 = k
    · rw [if_pos hk, if_pos (h1 ▸ hk), h2 hk]
    · rw [if_neg hk, if_neg (h1 ▸ hk)]

theorem evalE_congr {sc1 sc2 : List (String × ℚ)}
    (h : ∀ n, alookup n sc1 = alookup n sc2) (e : Expr) :
    evalE sc1 e = evalE sc2 e := by
  induction e with
  | sym n => simp [evalE, h n]
  | num v => rfl
  | unop f a iha => rw [evalE, evalE, iha]
  | binop f a b iha ihb => rw [evalE, evalE, iha, ihb]

theorem mapM_option_congr {α β : Type} {f g : α → Option β} {l : List α}
    (h : ∀ a ∈ l, f a = g a) : l.mapM f = l.mapM g := by
  induction l with
  | nil => rfl
  | cons a t ih =>
    rw [List.mapM_cons, List.mapM_cons, h a (List.mem_cons_self a t),
      ih (fun x hx => h x (List.mem_cons_of_mem a hx))]

theorem getD_set_ne (l : List ℚ) (i j : Nat) (c d : ℚ) (h : j ≠ i) :
    (l.set i c).getD j d = l.getD j d := by
  rw [List.getD, List.getD, List.get?_eq_getElem?, List.get?_eq_getElem?,
    List.getElem?_set_ne (fun he => h he.symm)]

/-- The scope `dY` builds does not depend on a component of the state
vector whose species id also names a parameter: the parameter loop
overwrites it. -/
theorem dYScope_shadowed_component (s : WebSystem) (y : List ℚ) (i : Nat)
    (c : ℚ) (id : String) (pv : Parameter)
    (hid : (s.species.map Prod.fst).get? i = some id)
    (hp : alookup id s.parameters = some pv) :
    ∀ k, alookup k (dYScope s (y.set i c)) = alookup k (dYScope s y) := by
  intro k
  by_cases hk : k = id
  · subst hk
    have hkm : k ∈ s.parameters.map Prod.fst :=
      List.mem_map_of_mem Prod.fst (alookup_mem hp)
    have hkm2 : k ∈ (s.parameters.map (fun p => (p.1, p.2.value))).map Prod.fst := by
      simpa using hkm
    rcases lastVal_isSome_of_mem hkm2 with ⟨v, hv⟩
    rw [dYScope_alookup, dYScope_alookup, hv]
    rfl
  · rw [dYScope_alookup, dYScope_alookup]
    have hlen : (y.set i c).length = y.length := List.length_set y i c
    rw [hlen]
    have hF : List.Forall₂ (fun p q => p.1 = q.1 ∧ (p.1 = k → p.2 = q.2))
        ((List.range y.length).map
          (fun j => ((s.species.map Prod.fst).getD j "undefined", (y.set i c).getD j 0)))
        ((List.range y.length).map
          (fun j => ((s.species.map Prod.fst).getD j "undefined", y.getD j 0))) := by
      rw [List.forall₂_map_right_iff, List.forall₂_map_left_iff, List.forall₂_same]
      intro j hj
      by_cases hji : j = i
      · subst hji
        have hfst : (s.species.map Prod.fst).getD j "undefined" = id := by
          rw [List.getD_eq_getElem?_getD, ← List.get?_eq_getElem?, hid]
          rfl
        exact ⟨rfl, fun hk2 => absurd (hfst ▸ hk2) (fun he => hk he.symm)⟩
      · exact ⟨rfl, fun _ => by rw [getD_set_ne _ _ _ _ _ hji]⟩
    rw [lastVal_congr k hF]

/-- C10: in `dY`, parameter values are written into the evaluation scope
after the species state values, so an identifier naming both a species and
a parameter is bound to the parameter's value and the corresponding
component of the state vector `y` is ignored: replacing that component
changes nothing in the result. -/
theorem dY_parameter_shadows_species (s : WebSystem) (t : ℚ) (y : List ℚ)
    (i : Nat) (c : ℚ) (id : String) (pv : Parameter)
    (hid : (s.species.map Prod.fst).get? i = some id)
    (hp : alookup id s.parameters = some pv)
    (hN : (s.parameters.map Prod.fst).Nodup) :
    alookup id (dYScope s y) = some pv.value ∧ dY s t (y.set i c) = dY s t y := by
  constructor
  · exact scope_binds_parameter s y id pv hp hN
  · rw [dY, dY]
    have hlen : (y.set i c).length = y.length := List.length_set y i c
    rw [hlen]
    apply mapM_option_congr
    intro a _
    cases hm : s.model.getD a none with
    | none => rfl
    | some m => exact evalE_congr (dYScope_shadowed_component s y i c id pv hid hp) m

/-- C10 (witness): in `sysD` the identifier `x` names both the single
species (component 0 of the state vector) and a parameter of value 7; the
theorem applies, the scope binds `x` to 7, and replacing `y[0]` leaves
`dY` unchanged — concretely, `dY` evaluates to `[7]` whatever the state
component was. -/
theorem dY_parameter_shadows_species_witness :
    ((sysD.species.map Prod.fst).get? 0 = some "x" ∧
        alookup "x" sysD.parameters = some ⟨7, none⟩ ∧
        (sysD.parameters.map Prod.fst).Nodup) ∧
      (alookup "x" (dYScope sysD [3]) = some (7 : ℚ) ∧
        dY sysD 0 ([3].set 0 99) = dY sysD 0 [3]) ∧
      dY sysD 0 [3] = some [7] :=
  ⟨⟨by decide, by decide, by decide⟩,
    dY_parameter_shadows_species sysD 0 [3] 0 99 "x" ⟨7, none⟩
      (by decide) (by decide) (by decide),
    by decide⟩

/-!
The length-synchronization invariant of the state buffer.
-/

theorem mem_foldl_jsObjSet {A : Type} (f : A → List (Option ℚ)) (kvs : List (String × A))
    (init : List (String × List (Option ℚ))) (p : String × List (Option ℚ))
    (h : p ∈ kvs.foldl (fun tr q => jsObjSet tr q.1 (f q.2)) init) :
    p ∈ init ∨ ∃ q ∈ kvs, p.2 = f q.2 := by
  induction kvs generalizing init with
  | nil => exact Or.inl h
  | cons q t ih =>
    rw [List.foldl_cons] at h
    rcases ih _ h with h1 | h1
    · rcases mem_jsObjSet _ _ _ _ h1 with h2 | h2
      · exact Or.inl h2
      · exact Or.inr ⟨q, List.mem_cons_self _ _, h2⟩
    · rcases h1 with ⟨r, hr, he⟩
      exact Or.inr ⟨r, List.mem_cons_of_mem _ hr, he⟩

theorem synced_simNew (sys : WebSystem) : syncedSim (simNew sys) := by
  intro p hp
  rw [simNew] at hp
  rcases mem_foldl_jsObjSet (fun sp => [some sp.value]) sys.species [] p hp with h | h
  · simp at h
  · rcases h with ⟨q, _, he⟩
    rw [show (simNew sys).time = [0] from rfl]
    simp [he]

theorem synced_trim (b : ℚ) (s : Simulation) (hs : syncedSim s) :
    syncedSim (trim b s) := by
  rw [trim]
  cases hl : s.time.getLast? with
  | none => exact hs
  | some tl =>
    simp only
    by_cases hm : tl - b ∈ s.time
    · rw [if_pos hm]
      intro p hp
      rcases List.mem_map.mp hp with ⟨q, hq, he⟩
      subst he
      simp only [List.length_drop]
      rw [hs q hq]
    · rw [if_neg hm]
      exact hs

theorem synced_update (b : ℚ) (s : Simulation) (sol : Solution)
    (hs : syncedSim s) (hy : sol.y.length = sol.x.length) :
    syncedSim (update_state b s sol) := by
  have hs' : syncedSim
      { time := s.time ++ sol.x.map (fun t => t + jsLast s.time)
        trajectory := s.trajectory.map (fun p =>
          (p.1, p.2 ++ (colOf sol.y (idxOf p.1 (s.trajectory.map Prod.fst))).map some)) } := by
    intro p hp
    rcases List.mem_map.mp hp with ⟨q, hq, he⟩
    subst he
    simp only [List.length_append, List.length_map, colOf]
    rw [hs q hq, hy]
  rw [update_state]
  by_cases hc : (s.time ++ sol.x.map (fun t => t + jsLast s.time)).headD 0 + b <
      jsLast (s.time ++ sol.x.map (fun t => t + jsLast s.time))
  · rw [if_pos hc]
    exact synced_trim _ _ hs'
  · rw [if_neg hc]
    exact hs'

theorem mem_insSorted (x a : String) (l : List String) :
    x ∈ insSorted a l → x = a ∨ x ∈ l := by
  induction l with
  | nil => intro h; simpa [insSorted] using h
  | cons b t ih =>
    intro h
    rw [insSorted] at h
    by_cases hab : a ≤ b
    · rw [if_pos hab] at h
      simpa using h
    · rw [if_neg hab] at h
      rcases List.mem_cons.mp h with h1 | h1
      · exact Or.inr (h1 ▸ List.mem_cons_self _ _)
      · rcases ih h1 with h2 | h2
        · exact Or.inl h2
        · exact Or.inr (List.mem_cons_of_mem _ h2)

theorem mem_sortStr (x : String) (l : List String) (h : x ∈ sortStr l) : x ∈ l := by
  induction l with
  | nil => simpa [sortStr] using h
  | cons a t ih =>
    rw [sortStr] at h
    rcases mem_insSorted x a (sortStr t) h with h1 | h1
    · exact h1 ▸ List.mem_cons_self _ _
    · exact List.mem_cons_of_mem _ (ih h1)

theorem mem_dedupAdj (x prev : String) (l : List String) (h : x ∈ dedupAdj prev l) :
    x ∈ l := by
  induction l generalizing prev with
  | nil => simpa [dedupAdj] using h
  | cons b t ih =>
    rw [dedupAdj] at h
    by_cases hb : b = prev
    · rw [if_pos hb] at h
      exact List.mem_cons_of_mem _ (ih b h)
    · rw [if_neg hb] at h
      rcases List.mem_cons.mp h with h1 | h1
      · exact h1 ▸ List.mem_cons_self _ _
      · exact List.mem_cons_of_mem _ (ih b h1)

theorem synced_concat (s other s3 : Simulation) (hc : concatSim s other = some s3)
    (hs : syncedSim s) (ho : syncedSim other) : syncedSim s3 := by
  rw [concatSim] at hc
  cases hcomb : sortStr (s.trajectory.map Prod.fst ++ other.trajectory.map Prod.fst) with
  | nil => rw [hcomb] at hc; exact absurd hc (by simp)
  | cons c0 rest =>
    rw [hcomb] at hc
    simp only [Option.some.injEq] at hc
    subst hc
    intro p hp
    simp only at hp
    rcases List.mem_map.mp hp with ⟨k, hk, he⟩
    have hkc : k ∈ c0 :: rest := by
      rcases List.mem_cons.mp hk with h1 | h1
      · exact h1 ▸ List.mem_cons_self _ _
      · exact List.mem_cons_of_mem _ (mem_dedupAdj k c0 rest h1)
    have hkm : k ∈ s.trajectory.map Prod.fst ++ other.trajectory.map Prod.fst :=
      mem_sortStr k _ (hcomb ▸ hkc)
    subst he
    simp only [List.length_append, List.length_map]
    cases h1 : alookup k s.trajectory with
    | none =>
      cases h2 : alookup k other.trajectory with
      | none =>
        exfalso
        rcases List.mem_append.mp hkm with h3 | h3
        · exact (alookup_eq_none_iff k s.trajectory).mp h1 h3
        · exact (alookup_eq_none_iff k other.trajectory).mp h2 h3
      | some t2 =>
        have := ho _ (alookup_mem h2)
        simp only [h1, h2, List.length_append, List.length_replicate]
        rw [this]
    | some t1 =>
      have hl1 := hs _ (alookup_mem h1)
      cases h2 : alookup k other.trajectory with
      | none =>
        simp only [h1, h2, List.length_append, List.length_replicate]
        rw [hl1]
      | some t2 =>
        have hl2 := ho _ (alookup_mem h2)
        simp only [h1, h2, List.length_append]
        rw [hl1, hl2]

/-- C8: in every reachable `Simulation` state — after construction, after
each real-time `update_state` tick (with a well-formed integrator result),
after `trim`, and in the result of `concat` — every trajectory sequence
has exactly the length of the time sequence. -/
theorem reachable_lengths_synced (s : Simulation) (h : ReachableSim s) :
    syncedSim s := by
  induction h with
  | ctor_system sys => exact synced_simNew sys
  | ctor_keys sol => intro p hp; simp at hp
  | ctor_null => intro p hp; simp at hp
  | tick s b sol hs hwf ih => exact synced_update b s sol ih hwf.1
  | trimmed s b hs ih => exact synced_trim b s ih
  | concatenated s other s3 hs ho hc ih io => exact synced_concat s other s3 hc ih io

/-- C8 (witness): the invariant theorem applies to the concrete reachable
state reached by constructing the real-time buffer for `sysD` and trimming
it. -/
theorem reachable_lengths_synced_witness :
    ReachableSim (trim 10 (simNew sysD)) ∧ syncedSim (trim 10 (simNew sysD)) :=
  ⟨ReachableSim.trimmed _ 10 (ReachableSim.ctor_system sysD),
    reachable_lengths_synced _ (ReachableSim.trimmed _ 10 (ReachableSim.ctor_system sysD))⟩

/-!
The model compiler.
-/

theorem foldlM_option_append {α β : Type} (f : β → α → Option β) (l1 l2 : List α)
    (b : β) :
    (l1 ++ l2).foldlM f b = (l1.foldlM f b).bind (l2.foldlM f) := by
  induction l1 generalizing b with
  | nil => simp
  | cons a t ih =>
    rw [List.cons_append, List.foldlM_cons, List.foldlM_cons]
    cases f b a with
    | none => simp
    | some b' => simp [ih b']

theorem compileFold_flatten (insts : List InteractionDefinition)
    (st : List (String × Species)) :
    insts.foldlM (fun st inst => inst.rules.foldlM aggPair st) st =
      (insts.flatMap (fun i => i.rules)).foldlM aggPair st := by
  induction insts generalizing st with
  | nil => rfl
  | cons i t ih =>
    rw [List.foldlM_cons, List.flatMap_cons, foldlM_option_append]
    cases h : i.rules.foldlM aggPair st with
    | none => simp
    | some st' => simp [ih st']

theorem leftSum_snoc (xs : List Expr) (e : Expr) :
    leftSum (xs ++ [e]) =
      some (match leftSum xs with
        | none => e
        | some prev => Expr.binop "add" prev e) := by
  cases xs with
  | nil => rfl
  | cons x xt =>
    rw [show (x :: xt) ++ [e] = x :: (xt ++ [e]) from rfl, leftSum, leftSum]
    rw [List.foldl_append]
    rfl

theorem contribsPairs_append (l1 l2 : List (String × Rule)) (sp : String) :
    contribsPairs (l1 ++ l2) sp = contribsPairs l1 sp ++ contribsPairs l2 sp := by
  rw [contribsPairs, contribsPairs, contribsPairs, List.filterMap_append]

theorem contribsPairs_flatMap (insts : List InteractionDefinition) (sp : String) :
    contribsPairs (insts.flatMap (fun i => i.rules)) sp = contribsFor insts sp := by
  induction insts with
  | nil => rfl
  | cons i t ih =>
    rw [List.flatMap_cons, contribsPairs_append, contribsFor, List.flatMap_cons, ih]
    rfl

theorem alookup_isSome_of_mem [DecidableEq κ] {k : κ} {l : List (κ × α)}
    (h : k ∈ l.map Prod.fst) : ∃ v, alookup k l = some v := by
  induction l with
  | nil => simp at h
  | cons p t ih =>
    by_cases hp : p.1 = k
    · exact ⟨p.2, by simp [alookup, hp]⟩
    · have ht : k ∈ t.map Prod.fst := by
        simp only [List.map_cons, List.mem_cons] at h
        rcases h with h | h
        · exact absurd h.symm hp
        · exact h
      rcases ih ht with ⟨v, hv⟩
      exact ⟨v, by simp [alookup, hp, hv]⟩

theorem alookup_map_keyed [DecidableEq κ] (l : List (κ × α)) (g : κ → α → β) (k : κ) :
    alookup k (l.map (fun p => (p.1, g p.1 p.2))) = (alookup k l).map (g k) := by
  induction l with
  | nil => rfl
  | cons p t ih =>
    by_cases hp : p.1 = k
    · subst hp
      simp [alookup, ih]
    · simp [alookup, hp, ih]

theorem stateOf_keys (species0 : List (String × Species)) (done : List (String × Rule)) :
    (stateOf species0 done).map Prod.fst = species0.map Prod.fst := by
  rw [stateOf, List.map_map]
  rfl

theorem idxOf_get_nodup [DecidableEq α] (l : List α) (hnd : l.Nodup) (j : Nat)
    (h : j < l.length) : idxOf (l.get ⟨j, h⟩) l = j := by
  induction l generalizing j with
  | nil => simp at h
  | cons a t ih =>
    rcases List.nodup_cons.mp hnd with ⟨hat, hndt⟩
    cases j with
    | zero => simp [idxOf]
    | succ j' =>
      have hmem : t.get ⟨j', Nat.lt_of_succ_lt_succ h⟩ ∈ t := List.get_mem _ _ _
      have hne : ¬ (a = t.get ⟨j', Nat.lt_of_succ_lt_succ h⟩) :=
        fun he => hat (he ▸ hmem)
      rw [show (a :: t).get ⟨j' + 1, h⟩ = t.get ⟨j', Nat.lt_of_succ_lt_succ h⟩ from rfl]
      rw [idxOf, if_neg hne, ih hndt j' (Nat.lt_of_succ_lt_succ h)]

theorem take_set_succ {α : Type} (m : List α) (k : Nat) (v : α) (h : k < m.length) :
    (m.set k v).take (k + 1) = m.take k ++ [v] := by
  induction m generalizing k with
  | nil => simp at h
  | cons a t ih =>
    cases k with
    | zero => simp
    | succ k' =>
      rw [List.set_cons_succ, List.take_succ_cons, List.take_succ_cons,
        ih k' (Nat.lt_of_succ_lt_succ h), List.cons_append]

theorem writeSeq {V : Type} (g : V → Option Expr) (idx : V → Nat) :
    ∀ (post : List V) (m : List (Option Expr)) (k : Nat),
      (∀ j (h : j < post.length), idx (post.get ⟨j, h⟩) = k + j) →
      m.length = k + post.length →
      post.foldl (fun m p => jsSetIdx m (idx p) (g p) none) m = m.take k ++ post.map g := by
  intro post
  induction post with
  | nil =>
    intro m k _ hlen
    simp only [List.foldl_nil, List.map_nil, List.append_nil]
    rw [show k = m.length by simpa using hlen.symm, List.take_length]
  | cons p pt ih =>
    intro m k hidx hlen
    have hk : idx p = k := by simpa using hidx 0 (by simp)
    have hklt : k < m.length := by
      rw [hlen]
      simp only [List.length_cons]
      omega
    rw [List.foldl_cons, jsSetIdx, hk, if_pos hklt]
    have hidx' : ∀ j (h : j < pt.length), idx (pt.get ⟨j, h⟩) = (k + 1) + j := by
      intro j hj
      have := hidx (j + 1) (by simpa using Nat.succ_lt_succ hj)
      rw [show (p :: pt).get ⟨j + 1, by simpa using Nat.succ_lt_succ hj⟩ =
        pt.get ⟨j, hj⟩ from rfl] at this
      omega
    have hlen' : (m.set k (g p)).length = (k + 1) + pt.length := by
      rw [List.length_set, hlen, List.length_cons]
      omega
    rw [ih (m.set k (g p)) (k + 1) hidx' hlen', take_set_succ m k (g p) hklt]
    simp

theorem alookup_stateOf (species0 : List (String × Species))
    (done : List (String × Rule)) (k : String) :
    alookup k (stateOf species0 done) = (alookup k species0).map (fun v =>
      { v with rate_law :=
        { v.rate_law with expression := leftSum (contribsPairs done k) } }) := by
  induction species0 with
  | nil => rfl
  | cons p t ih =>
    rw [stateOf, List.map_cons]
    simp only [alookup]
    by_cases hp : p.1 = k
    · rw [if_pos hp, if_pos hp, hp]
      rfl
    · rw [if_neg hp, if_neg hp]
      exact ih

theorem aggPair_stateOf (species0 : List (String × Species))
    (hnd : (species0.map Prod.fst).Nodup) (done : List (String × Rule))
    (pr : String × Rule)
    (hOK : pr.2.expression.isSome = true → pr.1 ∈ species0.map Prod.fst) :
    aggPair (stateOf species0 done) pr = some (stateOf species0 (done ++ [pr])) := by
  cases hpe : pr.2.expression with
  | none =>
    simp only [aggPair, hpe]
    congr 1
    rw [stateOf, stateOf]
    apply List.map_congr_left
    intro q _
    rw [contribsPairs_append]
    have hone : contribsPairs [pr] q.1 = [] := by
      simp [contribsPairs, hpe]
    rw [hone, List.append_nil]
  | some e =>
    have hkm : pr.1 ∈ species0.map Prod.fst := hOK (by rw [hpe]; rfl)
    obtain ⟨spv, hsp⟩ := alookup_isSome_of_mem hkm
    have hlook : alookup pr.1 (stateOf species0 done) =
        some { spv with rate_law :=
          { spv.rate_law with expression := leftSum (contribsPairs done pr.1) } } := by
      rw [alookup_stateOf, hsp]
      rfl
    simp only [aggPair, hpe, hlook]
    congr 1
    rw [stateOf, stateOf, List.map_map]
    apply List.map_congr_left
    intro q hq
    simp only [Function.comp_apply]
    by_cases hqp : q.1 = pr.1
    · have hspq : spv = q.2 := by
        have h2 : alookup pr.1 species0 = some q.2 := by
          rw [← hqp]
          exact alookup_of_mem_nodup
            (show (q.1, q.2) ∈ species0 by rw [Prod.mk.eta]; exact hq) hnd
        rw [hsp] at h2
        injection h2
      rw [if_pos hqp, contribsPairs_append]
      have hone : contribsPairs [pr] q.1 = [e] := by
        rw [hqp]
        simp [contribsPairs, hpe]
      rw [hone, leftSum_snoc, ← hspq, hqp]
    · rw [if_neg hqp, contribsPairs_append]
      have hone : contribsPairs [pr] q.1 = [] := by
        have hne : ¬ (pr.1 = q.1) := fun he => hqp he.symm
        simp [contribsPairs, hne]
      rw [hone, List.append_nil]

theorem aggFold_spec (species0 : List (String × Species))
    (hnd : (species0.map Prod.fst).Nodup) :
    ∀ (rest done : List (String × Rule)),
      (∀ p ∈ rest, p.2.expression.isSome = true → p.1 ∈ species0.map Prod.fst) →
      rest.foldlM aggPair (stateOf species0 done) =
        some (stateOf species0 (done ++ rest)) := by
  intro rest
  induction rest with
  | nil => intro done _; simp
  | cons pr rest' ih =>
    intro done hOK
    rw [List.foldlM_cons,
      aggPair_stateOf species0 hnd done pr (hOK pr (List.mem_cons_self _ _))]
    show rest'.foldlM aggPair (stateOf species0 (done ++ [pr])) = _
    rw [ih (done ++ [pr]) (fun p hp => hOK p (List.mem_cons_of_mem _ hp))]
    rw [List.append_assoc]
    rfl

/-- C2: `compile()` resets every species' rate law, folds the live
instances in registration order — assigning a structural copy of the first
contribution and combining later ones via left-associated
`previous + new_term` additive nodes — and emits one compiled evaluator
per species in declaration order, the constant-zero evaluator
(`math.compile("0")`) for species without any contribution.  Stated as one
equation: the compiled system's species map carries, per species, the
left-associated sum `leftSum` of its contributions `contribsFor` in
registration order, and the model is the species-ordered list of these
compiled rate laws with `Expr.num 0` where there is none. -/
theorem compile_aggregates_rate_laws (s : WebSystem)
    (hnd : (s.species.map Prod.fst).Nodup)
    (hlen : s.model.length = s.species.length)
    (hOK : ∀ inst ∈ s.instances, ∀ p ∈ inst.rules,
      p.2.expression.isSome = true → p.1 ∈ s.species.map Prod.fst) :
    compileSystem s = some
      { s with
        species := s.species.map (fun p =>
          (p.1, { p.2 with rate_law :=
            { p.2.rate_law with expression := leftSum (contribsFor s.instances p.1) } }))
        model := s.species.map (fun p =>
          some ((leftSum (contribsFor s.instances p.1)).getD (Expr.num 0))) } := by
  have hreset : resetRateLaws s.species = stateOf s.species [] := rfl
  have hOKflat : ∀ p ∈ s.instances.flatMap (fun i => i.rules),
      p.2.expression.isSome = true → p.1 ∈ s.species.map Prod.fst := by
    intro p hp
    rcases List.mem_flatMap.mp hp with ⟨inst, hinst, hpr⟩
    exact hOK inst hinst p hpr
  have hagg : s.instances.foldlM (fun st inst => inst.rules.foldlM aggPair st)
      (resetRateLaws s.species) =
      some (stateOf s.species (s.instances.flatMap (fun i => i.rules))) := by
    rw [hreset, compileFold_flatten,
      aggFold_spec s.species hnd (s.instances.flatMap (fun i => i.rules)) [] hOKflat]
    rfl
  have hspec : stateOf s.species (s.instances.flatMap (fun i => i.rules)) =
      s.species.map (fun p =>
        (p.1, { p.2 with rate_law :=
          { p.2.rate_law with expression := leftSum (contribsFor s.instances p.1) } })) := by
    rw [stateOf]
    apply List.map_congr_left
    intro q _
    rw [contribsPairs_flatMap]
  have hkeys2 : (stateOf s.species (s.instances.flatMap (fun i => i.rules))).map Prod.fst =
      s.species.map Prod.fst := stateOf_keys _ _
  have hwrite : (stateOf s.species (s.instances.flatMap (fun i => i.rules))).foldl
      (fun m p => jsSetIdx m
        (idxOf p.1 ((stateOf s.species (s.instances.flatMap (fun i => i.rules))).map Prod.fst))
        (some (p.2.rate_law.expression.getD (Expr.num 0))) none)
      s.model =
      (stateOf s.species (s.instances.flatMap (fun i => i.rules))).map
        (fun p => some (p.2.rate_law.expression.getD (Expr.num 0))) := by
    have hlen2 : s.model.length =
        0 + (stateOf s.species (s.instances.flatMap (fun i => i.rules))).length := by
      rw [stateOf, List.length_map, hlen]
      omega
    have hidx : ∀ j (h : j < (stateOf s.species (s.instances.flatMap (fun i => i.rules))).length),
        idxOf ((stateOf s.species (s.instances.flatMap (fun i => i.rules))).get ⟨j, h⟩).1
          ((stateOf s.species (s.instances.flatMap (fun i => i.rules))).map Prod.fst) = 0 + j := by
      intro j h
      have hjm : j < ((stateOf s.species (s.instances.flatMap (fun i => i.rules))).map Prod.fst).length := by
        simpa using h
      have hget : ((stateOf s.species (s.instances.flatMap (fun i => i.rules))).get ⟨j, h⟩).1 =
          ((stateOf s.species (s.instances.flatMap (fun i => i.rules))).map Prod.fst).get ⟨j, hjm⟩ := by
        rw [List.get_map]
      rw [hget, idxOf_get_nodup _ (by rw [hkeys2]; exact hnd) j hjm]
      omega
    rw [writeSeq (fun p => some (p.2.rate_law.expression.getD (Expr.num 0)))
      (fun p => idxOf p.1 ((stateOf s.species (s.instances.flatMap (fun i => i.rules))).map Prod.fst))
      (stateOf s.species (s.instances.flatMap (fun i => i.rules))) s.model 0 hidx hlen2]
    simp
  rw [compileSystem, hagg]
  simp only
  rw [hwrite, hspec, List.map_map]
  rfl

/-- C2 (witness): the hypotheses of `compile_aggregates_rate_laws` hold at
the concrete system `sysE` (two species, two live instances both
contributing to `A`), the theorem applies, and evaluating the compiler
there shows `A`'s model entry is the left-associated sum `q + 3` of the
two contributions in registration order while the contribution-less `B`
receives the constant-zero evaluator. -/
theorem compile_aggregates_rate_laws_witness :
    ((sysE.species.map Prod.fst).Nodup ∧ sysE.model.length = sysE.species.length ∧
        (∀ inst ∈ sysE.instances, ∀ p ∈ inst.rules,
          p.2.expression.isSome = true → p.1 ∈ sysE.species.map Prod.fst)) ∧
      compileSystem sysE = some
        { sysE with
          species := sysE.species.map (fun p =>
            (p.1, { p.2 with rate_law :=
              { p.2.rate_law with expression := leftSum (contribsFor sysE.instances p.1) } }))
          model := sysE.species.map (fun p =>
            some ((leftSum (contribsFor sysE.instances p.1)).getD (Expr.num 0))) } ∧
      (compileSystem sysE).map (fun s' => s'.model) =
        some [some (.binop "add" (.sym "q") (.num 3)), some (.num 0)] :=
  ⟨⟨by decide, by decide, by decide⟩,
    compile_aggregates_rate_laws sysE (by decide) (by decide) (by decide),
    by decide⟩

/-!
Template preservation under binding/substitution (the heap model).
-/

theorem allocExpr_spec (e : Expr) : ∀ (h : Heap),
    (allocExpr e h).2.next = h.next + exprSize e ∧
    h.next ≤ (allocExpr e h).1 ∧
    (allocExpr e h).1 + 1 = (allocExpr e h).2.next ∧
    ∃ cells, (allocExpr e h).2.mem = h.mem ++ cells ∧
      ∀ p ∈ cells, h.next ≤ p.1 ∧ p.1 < (allocExpr e h).2.next ∧
        ∀ b ∈ nodeAddrs p.2, h.next ≤ b ∧ b < p.1 := by
  induction e with
  | sym n =>
    intro h
    refine ⟨rfl, le_refl _, rfl, [(h.next, .sym n)], rfl, ?_⟩
    intro p hp
    simp only [List.mem_singleton] at hp
    subst hp
    exact ⟨le_refl _, by simp [allocExpr], by simp [nodeAddrs]⟩
  | num v =>
    intro h
    refine ⟨rfl, le_refl _, rfl, [(h.next, .num v)], rfl, ?_⟩
    intro p hp
    simp only [List.mem_singleton] at hp
    subst hp
    exact ⟨le_refl _, by simp [allocExpr], by simp [nodeAddrs]⟩
  | unop f a iha =>
    intro h
    obtain ⟨hnext, hroot, hroot1, cells, hmem, hcells⟩ := iha h
    refine ⟨?_, ?_, rfl,
      cells ++ [((allocExpr a h).2.next, .unop f (allocExpr a h).1)], ?_, ?_⟩
    · show (allocExpr a h).2.next + 1 = h.next + exprSize (.unop f a)
      rw [exprSize]
      omega
    · show h.next ≤ (allocExpr a h).2.next
      omega
    · show (allocExpr a h).2.mem ++ _ = h.mem ++ _
      rw [hmem, List.append_assoc]
    · intro p hp
      rcases List.mem_append.mp hp with hp1 | hp1
      · obtain ⟨hb1, hb2, hb3⟩ := hcells p hp1
        refine ⟨hb1, ?_, fun x hx => ⟨(hb3 x hx).1, (hb3 x hx).2⟩⟩
        show p.1 < (allocExpr a h).2.next + 1
        omega
      · simp only [List.mem_singleton] at hp1
        subst hp1
        refine ⟨by omega, ?_, ?_⟩
        · show (allocExpr a h).2.next < (allocExpr a h).2.next + 1
          omega
        · intro x hx
          simp only [nodeAddrs, List.mem_singleton] at hx
          subst hx
          exact ⟨hroot, by omega⟩
  | binop f a b iha ihb =>
    intro h
    obtain ⟨hnexta, hroota, hroota1, cellsa, hmema, hcellsa⟩ := iha h
    obtain ⟨hnextb, hrootb, hrootb1, cellsb, hmemb, hcellsb⟩ := ihb (allocExpr a h).2
    refine ⟨?_, ?_, rfl,
      cellsa ++ cellsb ++
        [((allocExpr b (allocExpr a h).2).2.next,
          .binop f (allocExpr a h).1 (allocExpr b (allocExpr a h).2).1)], ?_, ?_⟩
    · show (allocExpr b (allocExpr a h).2).2.next + 1 = h.next + exprSize (.binop f a b)
      rw [exprSize]
      omega
    · show h.next ≤ (allocExpr b (allocExpr a h).2).2.next
      omega
    · show (allocExpr b (allocExpr a h).2).2.mem ++ _ = h.mem ++ _
      rw [hmemb, hmema, List.append_assoc, List.append_assoc, List.append_assoc]
    · intro p hp
      rcases List.mem_append.mp hp with hp1 | hp1
      · rcases List.mem_append.mp hp1 with hp2 | hp2
        · obtain ⟨hb1, hb2, hb3⟩ := hcellsa p hp2
          refine ⟨hb1, ?_, fun x hx => ⟨(hb3 x hx).1, (hb3 x hx).2⟩⟩
          show p.1 < (allocExpr b (allocExpr a h).2).2.next + 1
          omega
        · obtain ⟨hb1, hb2, hb3⟩ := hcellsb p hp2
          refine ⟨by omega, ?_, ?_⟩
          · show p.1 < (allocExpr b (allocExpr a h).2).2.next + 1
            omega
          · intro x hx
            exact ⟨by have := (hb3 x hx).1; omega, (hb3 x hx).2⟩
      · simp only [List.mem_singleton] at hp1
        subst hp1
        refine ⟨by omega, ?_, ?_⟩
        · show (allocExpr b (allocExpr a h).2).2.next <
            (allocExpr b (allocExpr a h).2).2.next + 1
          omega
        · intro x hx
          simp only [nodeAddrs, List.mem_cons, List.mem_singleton] at hx
          rcases hx with hx | hx
          · subst hx
            exact ⟨hroota, by omega⟩
          · simp only [List.not_mem_nil, or_false] at hx
            subst hx
            exact ⟨by omega, by omega⟩

theorem hget_alloc_lt (e : Expr) (h : Heap) (a : Nat) (ha : a < h.next) :
    hget (allocExpr e h).2 a = hget h a := by
  obtain ⟨_, _, _, cells, hmem, hcells⟩ := allocExpr_spec e h
  rw [hget, hget, hmem, alookup_append]
  have hnone : alookup a cells = none := by
    rw [alookup_eq_none_iff]
    intro hmm
    rcases List.mem_map.mp hmm with ⟨p, hp, he⟩
    have := (hcells p hp).1
    omega
  cases hl : alookup a h.mem with
  | none => simp [hnone]
  | some nd => simp

/-- A heap whose cells and child references all lie below a bound. -/
def HeapWFBound (h : Heap) (w : Nat) : Prop :=
  ∀ p ∈ h.mem, p.1 < w ∧ ∀ b ∈ nodeAddrs p.2, b < w

theorem heapWF_iff_bound (h : Heap) : HeapWF h ↔ HeapWFBound h h.next :=
  Iff.rfl

theorem collect_ge (hh : Heap) (w : Nat)
    (hFC : ∀ p ∈ hh.mem, w ≤ p.1 → ∀ b ∈ nodeAddrs p.2, w ≤ b) :
    ∀ (fuel a : Nat), w ≤ a → ∀ x ∈ collectSyms hh fuel a, w ≤ x := by
  intro fuel
  induction fuel with
  | zero => intro a _ x hx; simp [collectSyms] at hx
  | succ fl ih =>
    intro a ha x hx
    rw [collectSyms] at hx
    cases hnd : hget hh a with
    | none => rw [hnd] at hx; simp at hx
    | some nd =>
      have hmem : (a, nd) ∈ hh.mem := alookup_mem hnd
      cases nd with
      | sym n =>
        rw [hnd] at hx
        simp only [List.mem_singleton] at hx
        exact hx ▸ ha
      | num v => rw [hnd] at hx; simp at hx
      | unop f b =>
        rw [hnd] at hx
        have hb : w ≤ b := hFC _ hmem ha b (by simp [nodeAddrs])
        exact ih b hb x hx
      | binop f b c =>
        rw [hnd] at hx
        rcases List.mem_append.mp hx with hx1 | hx1
        · exact ih b (hFC _ hmem ha b (by simp [nodeAddrs])) x hx1
        · exact ih c (hFC _ hmem ha c (by simp [nodeAddrs])) x hx1

theorem alloc_fresh_closed (e : Expr) (h : Heap) (hwf : HeapWF h) :
    ∀ p ∈ (allocExpr e h).2.mem, h.next ≤ p.1 →
      ∀ b ∈ nodeAddrs p.2, h.next ≤ b := by
  obtain ⟨_, _, _, cells, hmem, hcells⟩ := allocExpr_spec e h
  intro p hp hge b hb
  rw [hmem] at hp
  rcases List.mem_append.mp hp with hp1 | hp1
  · have := (hwf p hp1).1
    omega
  · exact ((hcells p hp1).2.2 b hb).1

theorem alookup_map_writeCell (l : List (Nat × HNode)) (x a : Nat) (nd : HNode)
    (hxa : x ≠ a) :
    alookup a (l.map (fun p => if p.1 = x then (x, nd) else p)) = alookup a l := by
  induction l with
  | nil => rfl
  | cons p t ih =>
    by_cases hp : p.1 = x
    · have hpa : ¬ (p.1 = a) := by rw [hp]; exact hxa
      simp only [List.map_cons, if_pos hp]
      rw [alookup, alookup, if_neg hxa, if_neg hpa, ih]
    · simp only [List.map_cons, if_neg hp]
      rw [alookup, alookup, ih]

theorem hget_writeCell_ne (hh : Heap) (x : Nat) (nd : HNode) (a : Nat)
    (hxa : x ≠ a) : hget (writeCell hh x nd) a = hget hh a := by
  rw [hget, hget, writeCell]
  exact alookup_map_writeCell hh.mem x a nd hxa

theorem renameAt_preserves (table : List (String × String)) (w : Nat) :
    ∀ (addrs : List Nat) (hh : Heap), (∀ x ∈ addrs, w ≤ x) →
      (∀ a, a < w → hget (renameAt table hh addrs) a = hget hh a) ∧
        (renameAt table hh addrs).next = hh.next := by
  intro addrs
  induction addrs with
  | nil => intro hh _; exact ⟨fun a _ => rfl, rfl⟩
  | cons x t ih =>
    intro hh hall
    have hxw : w ≤ x := hall x (List.mem_cons_self _ _)
    have htall : ∀ y ∈ t, w ≤ y := fun y hy => hall y (List.mem_cons_of_mem _ hy)
    rw [renameAt]
    split
    · split
      · obtain ⟨p1, p2⟩ := ih (writeCell hh x (.sym _)) htall
        refine ⟨fun a ha => ?_, ?_⟩
        · rw [p1 a ha, hget_writeCell_ne hh x _ a (by omega)]
        · rw [p2]
          rfl
      · exact ih hh htall
    · exact ih hh htall

theorem readE_agree (h1 h2 : Heap) (w : Nat)
    (hagree : ∀ a, a < w → hget h2 a = hget h1 a)
    (hwfb : HeapWFBound h1 w) :
    ∀ (fuel a : Nat), a < w → readE h2 fuel a = readE h1 fuel a := by
  intro fuel
  induction fuel with
  | zero => intro a _; rfl
  | succ fl ih =>
    intro a ha
    rw [readE, readE, hagree a ha]
    cases hnd : hget h1 a with
    | none => rfl
    | some nd =>
      have hmem : (a, nd) ∈ h1.mem := alookup_mem hnd
      cases nd with
      | sym n => rfl
      | num v => rfl
      | unop f b =>
        have hb : b < w := (hwfb _ hmem).2 b (by simp [nodeAddrs])
        show (readE h2 fl b).map (Expr.unop f) = (readE h1 fl b).map (Expr.unop f)
        rw [ih b hb]
      | binop f b c =>
        have hb : b < w := (hwfb _ hmem).2 b (by simp [nodeAddrs])
        have hc : c < w := (hwfb _ hmem).2 c (by simp [nodeAddrs])
        show (do
            let x ← readE h2 fl b
            let y ← readE h2 fl c
            some (Expr.binop f x y)) = (do
            let x ← readE h1 fl b
            let y ← readE h1 fl c
            some (Expr.binop f x y))
        rw [ih b hb, ih c hc]

theorem readE_some_bound (h : Heap) (w : Nat) (hwfb : HeapWFBound h w)
    (fuel a : Nat) (e : Expr) (hr : readE h fuel a = some e) : a < w := by
  cases fuel with
  | zero => exact absurd hr (by simp [readE])
  | succ fl =>
    rw [readE] at hr
    cases hnd : hget h a with
    | none => rw [hnd] at hr; exact absurd hr (by simp)
    | some nd => exact (hwfb _ (alookup_mem hnd)).1

/-- C3: the binding/substitution step of `Interaction` construction leaves
the template's own rule tree untouched.  `instantiateRule` first allocates
a fresh copy of the template expression (`math.parse` of its printed form)
and then renames the copy's symbol nodes in place.  In any well-formed
heap holding the template tree at address `t`: (1) no cell below the
allocation watermark is changed, (2) the template still reads back as the
same expression, (3) the instance's root — and, with (1) and (4), its
whole tree — lies at or above the old watermark, so the substituted copy
shares no node with the template, and (5) mutating any cell of the copy
(any address at or above the watermark) still leaves the template's read
unchanged. -/
theorem substitution_preserves_template (h : Heap) (hwf : HeapWF h)
    (fuel t : Nat) (etpl : Expr) (hread : readE h fuel t = some etpl)
    (table : List (String × String)) (e : Expr) :
    (∀ a, a < h.next → hget (instantiateRule table e h).2 a = hget h a) ∧
      readE (instantiateRule table e h).2 fuel t = some etpl ∧
      h.next ≤ (instantiateRule table e h).1 ∧
      (instantiateRule table e h).2.next = h.next + exprSize e ∧
      ∀ a nd, h.next ≤ a →
        readE (writeCell (instantiateRule table e h).2 a nd) fuel t = some etpl := by
  obtain ⟨hnext, hroot, hroot1, cells, hmem, hcells⟩ := allocExpr_spec e h
  have hcol : ∀ x ∈ collectSyms (allocExpr e h).2 (exprSize e) (allocExpr e h).1,
      h.next ≤ x :=
    fun x hx => collect_ge (allocExpr e h).2 h.next (alloc_fresh_closed e h hwf)
      (exprSize e) (allocExpr e h).1 hroot x hx
  obtain ⟨hren1, hren2⟩ := renameAt_preserves table h.next
    (collectSyms (allocExpr e h).2 (exprSize e) (allocExpr e h).1) (allocExpr e h).2 hcol
  have hagree : ∀ a, a < h.next → hget (instantiateRule table e h).2 a = hget h a := by
    intro a ha
    rw [show (instantiateRule table e h).2 =
      renameAt table (allocExpr e h).2
        (collectSyms (allocExpr e h).2 (exprSize e) (allocExpr e h).1) from rfl]
    rw [hren1 a ha, hget_alloc_lt e h a ha]
  have hwfb : HeapWFBound h h.next := hwf
  refine ⟨hagree, ?_, hroot, ?_, ?_⟩
  · rw [readE_agree h (instantiateRule table e h).2 h.next hagree hwfb fuel t
      (readE_some_bound h h.next hwfb fuel t etpl hread)]
    exact hread
  · rw [show (instantiateRule table e h).2 =
      renameAt table (allocExpr e h).2
        (collectSyms (allocExpr e h).2 (exprSize e) (allocExpr e h).1) from rfl]
    rw [hren2, hnext]
  · intro a nd hga
    have hagree2 : ∀ a', a' < h.next →
        hget (writeCell (instantiateRule table e h).2 a nd) a' = hget h a' := by
      intro a' ha'
      rw [hget_writeCell_ne _ a nd a' (by omega), hagree a' ha']
    rw [readE_agree h (writeCell (instantiateRule table e h).2 a nd) h.next hagree2 hwfb
      fuel t (readE_some_bound h h.next hwfb fuel t etpl hread)]
    exact hread

/-- C3 (witness): in a heap holding the `decay` template tree `-k*a` at
address 3, instantiating it with `a → Glucose`, `k → eta` applies the
theorem: the template's cells and read-back are untouched, the copy's root
is a fresh address, and reading the copy back shows the substituted tree
`-eta*Glucose`. -/
theorem substitution_preserves_template_witness :
    (HeapWF h3base ∧ readE h3base 10 3 = some eDecay) ∧
      (∀ a, a < h3base.next → hget (instantiateRule tbl3 eDecay h3base).2 a = hget h3base a) ∧
      readE (instantiateRule tbl3 eDecay h3base).2 10 3 = some eDecay ∧
      h3base.next ≤ (instantiateRule tbl3 eDecay h3base).1 ∧
      readE (instantiateRule tbl3 eDecay h3base).2 10 (instantiateRule tbl3 eDecay h3base).1 =
        some (.binop "multiply" (.unop "unaryMinus" (.sym "eta")) (.sym "Glucose")) :=
  ⟨⟨by unfold HeapWF; decide, by decide⟩,
    (substitution_preserves_template h3base (by unfold HeapWF; decide) 10 3 eDecay
      (by decide) tbl3 eDecay).1,
    (substitution_preserves_template h3base (by unfold HeapWF; decide) 10 3 eDecay
      (by decide) tbl3 eDecay).2.1,
    (substitution_preserves_template h3base (by unfold HeapWF; decide) 10 3 eDecay
      (by decide) tbl3 eDecay).2.2.1,
    by decide⟩

end WebModeler
